import Mathlib

/-!
Verification of the DAG execution engine of the nl2ngsild agent.

The development shallowly embeds the Python sources:
  * `fiware_client.py`   — `FiwareClient.execute_query` (query normalization,
    HTTP request shape, exception handling chain);
  * `plan_executor.py`   — `PlanExecutor.execute_dag` (adjacency matrix,
    Kahn topological sort, the sequential node-execution loop);
  * `dag_creator.py`     — `DAGCreator.create_node_details` (the "Graph
    Builder" step) and the shape of the two oracle prompts.

External round trips (the HTTP store, the LLM) are parameters of the
execution environment.  `DAGCreator.send_message_to_llm` catches all of its
own exceptions and returns a parsed value or an empty dict, so the oracle is
modelled as a total function; `FiwareClient.execute_query` likewise catches
every exception of its body and returns the exception object, which the
embedding mirrors with an explicit handler chain.  Python exceptions that do
escape (`KeyError`, `NameError`, `IndexError` in `execute_dag`) are modelled
with `Except`.
-/

deriving instance DecidableEq for Except

namespace NgsiAgent

/-- Python exception objects that the embedded code can raise or return. -/
inductive PyExn where
  /-- `KeyError` from a missing dict key, carrying the key. -/
  | keyError (k : String)
  /-- `NameError` from reading an unassigned local variable. -/
  | nameError (n : String)
  /-- `IndexError` from `topo_order[-1]` on an empty list. -/
  | indexError
  /-- `requests.exceptions.ConnectionError`. -/
  | connectionError (m : String)
  /-- `requests.exceptions.Timeout`. -/
  | timeoutError (m : String)
  /-- `requests.exceptions.HTTPError` (from `raise_for_status`). -/
  | httpError (m : String)
  /-- other `requests.exceptions.RequestException`. -/
  | requestError (m : String)
  /-- `json.JSONDecodeError` from `response.json()`. -/
  | jsonDecodeError (m : String)
  /-- any other `Exception` subclass. -/
  | otherError (m : String)
deriving DecidableEq

/-- Python str of an exception object (its carried message), used when an
exception object is interpolated into an f-string. -/
def PyExn.message : PyExn → String
  | .keyError k => k
  | .nameError n => n
  | .indexError => "list index out of range"
  | .connectionError m => m
  | .timeoutError m => m
  | .httpError m => m
  | .requestError m => m
  | .jsonDecodeError m => m
  | .otherError m => m

/-- Opaque Python values flowing through the executor: strings, parsed JSON
payloads, exception objects returned by `execute_query`, and the empty dict
`send_message_to_llm` returns when its own call fails. -/
inductive Value where
  | str (s : String)
  | jsonVal (s : String)
  | exnVal (e : PyExn)
  | emptyDict
deriving DecidableEq

/-- Python `str()` of a value, for f-string interpolation into a URL. -/
def renderValue : Value → List Char
  | .str s => s.data
  | .jsonVal s => s.data
  | .exnVal e => e.message.data
  | .emptyDict => ['\x7b', '\x7d']

/-! ## `fiware_client.py` — query normalization (lines 13-34) -/

/-- The whitespace set of Python `str.strip()`. -/
def isPySpace (c : Char) : Bool :=
  c == ' ' || c == '\t' || c == '\n' || c == '\r' || c == '\x0b' || c == '\x0c'

/-- Python `str.strip()`: drop leading and trailing whitespace. -/
def pyStrip (l : List Char) : List Char :=
  ((l.dropWhile isPySpace).reverse.dropWhile isPySpace).reverse

/-- Right-trim only: drop trailing whitespace.  Used to state the closed
form of the normalization on an arbitrary remainder — the code trims the
ends of the whole query, so only the remainder's trailing whitespace sits at
a trimmed boundary. -/
def pyRStrip (l : List Char) : List Char :=
  (l.reverse.dropWhile isPySpace).reverse

/-- Python `str.replace(" ", "")`: remove every space character. -/
def removeSpaces (l : List Char) : List Char :=
  l.filter (fun c => !(c == ' '))

/-- The example-origin placeholder checked on line 22 of `fiware_client.py`. -/
def localhostMarker : List Char := "http://localhost:1026/".data

/-- Lines 17-24 of `fiware_client.py`: if the query starts with `GET`, drop
it, strip, and remove all spaces; if it then starts with the example origin
`http://localhost:1026/`, drop that prefix and the leading slashes. -/
def normalizeParams (l : List Char) : List Char :=
  let p1 := if "GET".data.isPrefixOf (pyStrip l)
            then removeSpaces (pyStrip ((pyStrip l).drop 3))
            else l
  if localhostMarker.isPrefixOf (pyStrip p1)
  then ((pyStrip p1).drop localhostMarker.length).dropWhile (fun c => c == '/')
  else p1

/-- An HTTP request issued by `requests.get(full_url, headers=headers)`. -/
structure HttpRequest where
  url : List Char
  linkHeader : String
deriving DecidableEq

/-- The literal `Link` header attached on lines 29-31 of `fiware_client.py`. -/
def contextLinkHeader : String :=
  "<http://context/user-context.jsonld>; rel=http://www.w3.org/ns/json-ld#context; type=application/ld+json"

/-- The characters interpolated for `params` in `full_url` (line 27): a string
is first normalized (the `isinstance(params, str)` guards on lines 18 and 22);
any other value is interpolated as-is. -/
def paramsChars : Value → List Char
  | .str s => normalizeParams s.data
  | v => renderValue v

/-- The request built by `execute_query`: `f"{self.base_url}/{params}"` with
the linked-context header. -/
def requestOf (baseUrl : List Char) (v : Value) : HttpRequest :=
  { url := baseUrl ++ '/' :: paramsChars v, linkHeader := contextLinkHeader }

/-- Outcome of the underlying `requests.get` + `raise_for_status` + `.json()`
sequence (lines 34-45), as seen from the `try` body. -/
inductive HttpOutcome where
  /-- 2xx status and a parseable JSON body. -/
  | success (body : Value)
  /-- 2xx status but `response.json()` raises `JSONDecodeError`. -/
  | badJson (m : String)
  /-- `requests.get` raises `ConnectionError`. -/
  | connFail (m : String)
  /-- `requests.get` raises `Timeout`. -/
  | timeoutFail (m : String)
  /-- non-2xx status: `raise_for_status` raises `HTTPError`. -/
  | badStatus (m : String)
  /-- another `RequestException`. -/
  | reqFail (m : String)
  /-- any other exception inside the body. -/
  | unexpected (m : String)

/-- The `try` body of `execute_query` (lines 25-49): build the URL, perform
the request, return the decoded JSON or raise. -/
def executeQueryBody (http : HttpRequest → HttpOutcome) (baseUrl : List Char)
    (v : Value) : Except PyExn Value :=
  match http (requestOf baseUrl v) with
  | .success b => .ok b
  | .badJson m => .error (.jsonDecodeError m)
  | .connFail m => .error (.connectionError m)
  | .timeoutFail m => .error (.timeoutError m)
  | .badStatus m => .error (.httpError m)
  | .reqFail m => .error (.requestError m)
  | .unexpected m => .error (.otherError m)

/-- The `except` chain of lines 51-73.  Each clause `return e`s the exception
object; the final `except Exception` clause catches every remaining
exception.  `none` would mean the exception is not caught and propagates. -/
def handleExn (e : PyExn) : Option Value :=
  match e with
  | .connectionError m => some (.exnVal (.connectionError m))
  | .timeoutError m => some (.exnVal (.timeoutError m))
  | .httpError m => some (.exnVal (.httpError m))
  | .requestError m => some (.exnVal (.requestError m))
  | .jsonDecodeError m => some (.exnVal (.jsonDecodeError m))
  | e => some (.exnVal e)

namespace FiwareClient

/-- `FiwareClient.execute_query` (lines 13-73): run the body under the
handler chain.  An `.error` result would be an uncaught exception propagating
to the caller. -/
def execute_query (http : HttpRequest → HttpOutcome) (baseUrl : List Char)
    (v : Value) : Except PyExn Value :=
  match executeQueryBody http baseUrl v with
  | .ok b => .ok b
  | .error e =>
      match handleExn e with
      | some w => .ok w
      | none => .error e

end FiwareClient

/-! ## Plan data model

`execute_dag` works on `dag_nodes_structure`, a JSON-decoded dict mapping
node ids to dicts with keys `description` (optional: the executor reads it
with `.get`), `depends`, `atomic`, `query`, plus the `output` key the
executor writes.  The `error` and `status` fields come from the spec's Node
model (they also appear on the never-used `DAGNode` class of `dag_node.py`,
lines 17-18); `execute_dag` never writes either.  A Python dict preserves
insertion order, so a plan is an ordered association list with distinct
keys. -/

structure NodeEntry where
  description : Option String
  depends : List String
  atomic : Bool
  query : String
  output : Option Value := none
  error : Option String := none
  status : String := "pending"
deriving DecidableEq

abbrev Plan := List (String × NodeEntry)

/-- Dict lookup `dag_nodes_structure[node_id]` (first, hence only, match). -/
def lookupEntry : Plan → String → Option NodeEntry
  | [], _ => none
  | kv :: t, id => if kv.fst == id then some kv.snd else lookupEntry t id

/-- `list(dag_nodes_structure.keys())` (line 38). -/
def nodeIds (p : Plan) : List String := p.map Prod.fst

/-- `dag_nodes_structure[node_id]['output'] = v`. -/
def setOutput (p : Plan) (id : String) (v : Value) : Plan :=
  p.map (fun kv =>
    if kv.fst == id then (kv.fst, { kv.snd with output := some v }) else kv)

/-- The first dependency id, scanning entries and their `depends` lists in
order, that is not a key of the plan.  Lines 42-45 (`j = node_index[v]`)
raise `KeyError` on exactly this id while building the adjacency matrix. -/
def firstMissingDep (p : Plan) : Option String :=
  p.findSome? (fun kv => kv.snd.depends.find? (fun v => decide (v ∉ nodeIds p)))

/-! ## Scheduler: adjacency matrix and Kahn sort (lines 38-79) -/

/-- The adjacency matrix of lines 41-46: `adjacency_matrix[a][b] = 1` exactly
when the entry `(u, details)` at index `b` lists the key at index `a` in its
`depends` (the loop sets `adjacency_matrix[node_index[v]][node_index[u]] = 1`
for each `v` in `depends` of `u`; with distinct keys `node_index` is the
position in insertion order, so cell `(a, b)` is set iff node `b` depends on
node `a`). -/
def adjMatrix (p : Plan) (a b : Nat) : Bool :=
  match p[a]?, p[b]? with
  | some ka, some kb => decide (ka.fst ∈ kb.snd.depends)
  | _, _ => false

/-- `in_degree_matrix[j]` (lines 55-59): the number of 1-cells in column `j`
of the adjacency matrix. -/
def inDegree (p : Plan) (j : Nat) : Nat :=
  ((List.range p.length).filter (fun i => adjMatrix p i j)).length

/-- `topo_queue = [idx for idx, deg in enumerate(in_degree_matrix) if deg == 0]`
(line 65). -/
def initQueue (p : Plan) : List Nat :=
  (List.range p.length).filter (fun j => inDegree p j == 0)

/-- Sum of a degree function over indices `0..n-1`; the Kahn loop's measure
uses it. -/
def sumRange (d : Nat → Nat) (n : Nat) : Nat := ((List.range n).map d).sum

/-- The `while topo_queue:` loop of lines 70-77: pop the queue front, append
its node to the order, decrement the in-degree of every successor, enqueueing
those that reach zero (`deg == 1` before the decrement; a node whose Python
degree would go negative is never re-enqueued, which `Nat` subtraction with
the `== 1` test models faithfully).  The loop runs until the queue empties;
`fuel` only bounds the recursion and, started at `kahnFuel`, never runs
out (`kahnLoop_spec`). -/
def kahnLoop (p : Plan) : Nat → List Nat → (Nat → Nat) → List Nat → List Nat
  | _, [], _, topo => topo
  | 0, _ :: _, _, topo => topo
  | fuel + 1, u :: rest, d, topo =>
      let enq := (List.range p.length).filter (fun v => adjMatrix p u v && d v == 1)
      kahnLoop p fuel (rest ++ enq) (fun v => if adjMatrix p u v then d v - 1 else d v)
        (topo ++ [u])

/-- Initial fuel: the loop measure `|queue| + 2 * Σ degrees` strictly
decreases each iteration, so this bound is never reached. -/
def kahnFuel (p : Plan) : Nat :=
  (initQueue p).length + 2 * sumRange (inDegree p) p.length

/-- `topo_order` as indices. -/
def topoIdx (p : Plan) : List Nat :=
  kahnLoop p (kahnFuel p) (initQueue p) (inDegree p) []

/-- The node id at index `i` of the plan (`index_to_node_id`, line 62). -/
def keyAt (p : Plan) (i : Nat) : String :=
  ((p[i]?).map Prod.fst).getD ""

/-- `topo_order` as node ids (line 72). -/
def topoOrder (p : Plan) : List String :=
  (topoIdx p).map (keyAt p)

/-! ## Cycle detection (for stating hypotheses)

The source has no cycle check; these definitions only state properties. -/

/-- `reachB adj n fuel x y`: there is a directed path from `x` to `y` with at
most `fuel + 1` edges, through intermediate nodes below `n`.  Edge `a → b`
means `adj a b = true`, i.e. node `b` depends on node `a`. -/
def reachB (adj : Nat → Nat → Bool) (n : Nat) : Nat → Nat → Nat → Bool
  | 0, x, y => adj x y
  | fuel + 1, x, y =>
      adj x y || (List.range n).any (fun z => adj x z && reachB adj n fuel z y)

/-- Some node lies on a dependency cycle. -/
def hasCycleB (p : Plan) : Bool :=
  (List.range p.length).any (fun x => reachB (adjMatrix p) p.length p.length x x)

/-- Index of a key in the plan. -/
def idxOfKey (p : Plan) (x : String) : Option Nat :=
  (List.range p.length).find? (fun i => keyAt p i == x)

/-- The node `x` lies on a dependency cycle of the plan. -/
def onCycleB (p : Plan) (x : String) : Bool :=
  match idxOfKey p x with
  | some i => reachB (adjMatrix p) p.length p.length i i
  | none => false

/-! ## Executor (lines 82-133 of `plan_executor.py`) -/

/-- The two prompts the executor sends to the oracle, as structured records
of exactly the pieces the f-strings interpolate. -/
inductive OracleMsg where
  /-- Line 104: the step-resolution prompt of a non-atomic node — the node's
  description (`node_details.get('description', f"Process step: {node_id}")`,
  line 99), `previous_output`, `user_task`, and the whole
  `dag_nodes_structure` as it stands at that point. -/
  | resolveStep (stepPrompt : String) (previousOutput : Value)
      (userTask : String) (planCtx : Plan)
  /-- Lines 120-122: the post-step review prompt — `str(node_details)` (the
  node's current dict, aliasing the shared structure, so its `output` is the
  value just written) and `str(previous_output)`. -/
  | review (nodeDetails : NodeEntry) (previousOutput : Value)
deriving DecidableEq

/-- The plan snapshot interpolated into a step-resolution prompt. -/
def OracleMsg.planCtxOf : OracleMsg → Plan
  | .resolveStep _ _ _ pl => pl
  | .review _ _ => []

/-- The execution environment: the data store behind `requests.get`, and the
oracle behind `DAGCreator.send_message_to_llm`.  `send_message_to_llm`
(lines 186-232 of `dag_creator.py`) wraps everything in `try`/`except` and
returns either the parsed reply or an empty dict, so it is a total
function. -/
structure ExecEnv where
  http : HttpRequest → HttpOutcome
  llm : OracleMsg → Value
  userTask : String
  baseUrl : List Char

/-- The executor's mutable state: the shared `dag_nodes_structure` and the
local variable `previous_output`, unassigned before the first branch that
writes it. -/
structure ExecState where
  plan : Plan
  prev : Option Value
deriving DecidableEq

/-- The step-resolution message built on lines 99-104. -/
def resolveMsg (env : ExecEnv) (st : ExecState) (id : String) (nd : NodeEntry)
    (pv : Value) : OracleMsg :=
  .resolveStep (nd.description.getD ("Process step: " ++ id)) pv env.userTask st.plan

/-- Lines 88-118: resolve and run the node's query.  Returns the updated
structure and the value assigned to `previous_output`.
* Atomic (lines 88-94): run the node's own query, store the response.
* Non-atomic (lines 96-118): read `previous_output` (line 104 — `NameError`
  if no prior iteration assigned it), ask the oracle for a concrete query,
  run it, store the store's response (line 109), then overwrite the node's
  `output` with the oracle's reply (line 116) and set `previous_output` to it
  (line 118).  The `try`/`except` of lines 106-114 cannot fire: both calls in
  the body are total, so the `return {}` path is dead code.
An `.error` models a propagating Python exception. -/
def resolvePhase (env : ExecEnv) (st : ExecState) (id : String)
    (nd : NodeEntry) : Except PyExn (Plan × Value) :=
  if nd.atomic then
    match FiwareClient.execute_query env.http env.baseUrl (.str nd.query) with
    | .error e => .error e
    | .ok response => .ok (setOutput st.plan id response, response)
  else
    match st.prev with
    | none => .error (.nameError "previous_output")
    | some pv =>
        let llmResponse := env.llm (resolveMsg env st id nd pv)
        match FiwareClient.execute_query env.http env.baseUrl llmResponse with
        | .error e => .error e
        | .ok responseCB =>
            .ok (setOutput (setOutput st.plan id responseCB) id llmResponse,
                 llmResponse)

/-- One iteration of the `for node_id in topo_order:` loop (lines 82-127):
fetch `node_details` (line 86), run `resolvePhase`, then the review step of
lines 120-127 — send the review prompt, store the oracle's reply as the
node's `output`, and assign it to `previous_output`. -/
def execNode (env : ExecEnv) (st : ExecState) (id : String) :
    Except PyExn ExecState :=
  match lookupEntry st.plan id with
  | none => .error (.keyError id)
  | some nd =>
      match resolvePhase env st id nd with
      | .error e => .error e
      | .ok (plan1, prevv) =>
          match lookupEntry plan1 id with
          | none => .error (.keyError id)
          | some nd' =>
              let r := env.llm (.review nd' prevv)
              .ok { plan := setOutput plan1 id r, prev := some r }

/-- The whole execution loop over the topological order. -/
def runNodes (env : ExecEnv) (st : ExecState) : List String → Except PyExn ExecState
  | [] => .ok st
  | id :: rest =>
      match execNode env st id with
      | .error e => .error e
      | .ok st' => runNodes env st' rest

namespace PlanExecutor

/-- `PlanExecutor.execute_dag` (lines 22-133): build the adjacency matrix
(raising `KeyError` on the first dependency id that is not a key, lines
42-45), compute the topological order, run every node in it, and return
`dag_nodes_structure[topo_order[-1]]['output']` (line 133) — `IndexError`
when the order is empty. -/
def execute_dag (env : ExecEnv) (plan : Plan) : Except PyExn Value :=
  match firstMissingDep plan with
  | some v => .error (.keyError v)
  | none =>
      match runNodes env ⟨plan, none⟩ (topoOrder plan) with
      | .error e => .error e
      | .ok st =>
          match (topoOrder plan).getLast? with
          | none => .error .indexError
          | some lastId =>
              match lookupEntry st.plan lastId with
              | none => .error (.keyError lastId)
              | some nd =>
                  match nd.output with
                  | some v => .ok v
                  | none => .error (.keyError "output")

end PlanExecutor

namespace DAGCreator

/-- `DAGCreator.create_node_details` (lines 236-242 of `dag_creator.py`):
`return dag_nodes_structure` on line 242 — the plan is returned unchanged and
everything below that line is dead code.  No validation occurs. -/
def create_node_details (userTask : String) (dag_nodes_structure : Plan) : Plan :=
  dag_nodes_structure

end DAGCreator

/-- Projection used to state counterexamples about the final shared state. -/
def finalPlanOf : Except PyExn ExecState → Option Plan
  | .ok st => some st.plan
  | .error _ => none

/-- Extract the state of a successful run (used by witnesses). -/
def okState (r : Except PyExn ExecState) : ExecState :=
  match r with
  | .ok st => st
  | .error _ => ⟨[], none⟩

/-- The executor-independent shape of a node entry: everything except
`output`. -/
def entryShape (nd : NodeEntry) :
    Option String × List String × Bool × String × Option String × String :=
  (nd.description, nd.depends, nd.atomic, nd.query, nd.error, nd.status)

/-- The number of dependencies of node `j` not yet emitted into `topo`; the
loop keeps `in_degree_matrix_copy[j]` equal to it. -/
def unemittedDeg (p : Plan) (topo : List Nat) (j : Nat) : Nat :=
  ((List.range p.length).filter
    (fun i => adjMatrix p i j && decide (i ∉ topo))).length

/-- The loop invariant of the Kahn sort (lines 64-77): the emitted order and
the queue are duplicate-free and disjoint, degrees count unemitted
dependencies, the queue holds exactly the unemitted degree-0 nodes, and every
emitted node's dependencies were emitted before it. -/
structure KahnInv (p : Plan) (q : List Nat) (d : Nat → Nat) (topo : List Nat) :
    Prop where
  topo_nodup : topo.Nodup
  q_nodup : q.Nodup
  disj : ∀ x ∈ q, x ∉ topo
  q_lt : ∀ x ∈ q, x < p.length
  topo_lt : ∀ x ∈ topo, x < p.length
  deg : ∀ j, j < p.length → d j = unemittedDeg p topo j
  queue0 : ∀ x ∈ q, d x = 0
  complete0 : ∀ j, j < p.length → d j = 0 → j ∈ topo ∨ j ∈ q
  ordered : ∀ t1 u t2, topo = t1 ++ u :: t2 → ∀ i, adjMatrix p i u = true → i ∈ t1

/-- Semantic dependency paths, extracted from `reachB`. -/
inductive AdjPath (adj : Nat → Nat → Bool) : Nat → Nat → Prop where
  | single {x y : Nat} : adj x y = true → AdjPath adj x y
  | cons {x z y : Nat} : adj x z = true → AdjPath adj z y → AdjPath adj x y

/-! ## Concrete fixtures for witnesses and counterexamples -/

/-- A data store that always answers with a decodable 2xx response. -/
def okHttp : HttpRequest → HttpOutcome := fun _ => .success (.jsonVal "data")

/-- A data store whose connection always fails. -/
def failHttp : HttpRequest → HttpOutcome := fun _ => .connFail "connection refused"

/-- An oracle that always replies with the same structured value. -/
def echoLlm : OracleMsg → Value := fun _ => .jsonVal "review"

def cenvOk : ExecEnv :=
  { http := okHttp, llm := echoLlm, userTask := "task",
    baseUrl := "http://host:1026".data }

def cenvFail : ExecEnv :=
  { http := failHttp, llm := echoLlm, userTask := "task",
    baseUrl := "http://host:1026".data }

def plan1 : Plan :=
  [("a", { description := some "find buildings", depends := [],
           atomic := true, query := "qa" }),
   ("b", { description := some "find devices", depends := ["a"],
           atomic := true, query := "qb" }),
   ("c", { description := some "aggregate", depends := ["a", "b"],
           atomic := false, query := "" })]

def plan2 : Plan :=
  [("a", { description := some "step a", depends := [],
           atomic := true, query := "qa" }),
   ("b", { description := some "step b", depends := ["a"],
           atomic := true, query := "qb" })]

def plan5 : Plan :=
  [("a", { description := some "free", depends := [],
           atomic := true, query := "qa" }),
   ("b", { description := some "cyc1", depends := ["c"],
           atomic := true, query := "qb" }),
   ("c", { description := some "cyc2", depends := ["b"],
           atomic := true, query := "qc" })]

def planMissing : Plan :=
  [("a", { description := some "ok", depends := [],
           atomic := true, query := "qa" }),
   ("b", { description := some "bad", depends := ["z"],
           atomic := true, query := "qb" })]

def planNonAtomicFirst : Plan :=
  [("a", { description := some "needs the oracle", depends := [],
           atomic := false, query := "" }),
   ("b", { description := some "then query", depends := ["a"],
           atomic := true, query := "qb" })]

/-! ## Basic lemmas about the node store -/

/-- The handler chain is exhaustive, so `execute_query` always returns a
value: on success the decoded JSON, on any failure the exception object. -/
theorem execute_query_total (http : HttpRequest → HttpOutcome)
    (baseUrl : List Char) (v : Value) :
    (∀ b, executeQueryBody http baseUrl v = .ok b →
      FiwareClient.execute_query http baseUrl v = .ok b) ∧
    (∀ e, executeQueryBody http baseUrl v = .error e →
      FiwareClient.execute_query http baseUrl v = .ok (Value.exnVal e)) := by
  constructor
  · intro b hb
    simp [FiwareClient.execute_query, hb]
  · intro e he
    simp only [FiwareClient.execute_query, he]
    cases e <;> simp [handleExn]



theorem lookupEntry_setOutput (p : Plan) (id k : String) (v : Value) :
    lookupEntry (setOutput p id v) k =
      if k = id then (lookupEntry p k).map (fun nd => { nd with output := some v })
      else lookupEntry p k := by
  induction p with
  | nil => simp [lookupEntry, setOutput]
  | cons kv t ih =>
      have hstep : setOutput (kv :: t) id v =
          (if kv.fst == id then (kv.fst, { kv.snd with output := some v }) else kv)
            :: setOutput t id v := rfl
      rw [hstep]
      by_cases h1 : kv.fst = id
      · by_cases h2 : k = id
        · subst h2
          simp [lookupEntry, h1]
        · have h4 : ¬ id = k := fun hk => h2 hk.symm
          simp [lookupEntry, h1, h2, h4, ih]
      · by_cases h3 : kv.fst = k
        · have h2 : ¬ k = id := fun hk => h1 (h3.symm ▸ hk)
          simp [lookupEntry, h1, h3, h2]
        · simp [lookupEntry, h1, h3, ih]

theorem lookupEntry_setOutput_self (p : Plan) (id : String) (v : Value) :
    lookupEntry (setOutput p id v) id =
      (lookupEntry p id).map (fun nd => { nd with output := some v }) := by
  rw [lookupEntry_setOutput, if_pos rfl]

theorem lookupEntry_setOutput_ne (p : Plan) (id k : String) (v : Value)
    (h : k ≠ id) :
    lookupEntry (setOutput p id v) k = lookupEntry p k := by
  rw [lookupEntry_setOutput, if_neg h]

theorem nodeIds_setOutput (p : Plan) (id : String) (v : Value) :
    nodeIds (setOutput p id v) = nodeIds p := by
  unfold nodeIds setOutput
  rw [List.map_map]
  apply List.map_congr_left
  intro kv _
  by_cases h : kv.fst = id <;> simp [h]

theorem lookupEntry_setOutput_shape (p : Plan) (id k : String) (v : Value) :
    (lookupEntry (setOutput p id v) k).map entryShape =
      (lookupEntry p k).map entryShape := by
  by_cases h : k = id
  · subst h
    rw [lookupEntry_setOutput_self]
    cases lookupEntry p k <;> rfl
  · rw [lookupEntry_setOutput_ne _ _ _ _ h]

/-- `execute_query` never lets an exception escape. -/
theorem execute_query_ok (http : HttpRequest → HttpOutcome)
    (baseUrl : List Char) (v : Value) :
    ∃ w, FiwareClient.execute_query http baseUrl v = .ok w := by
  unfold FiwareClient.execute_query
  cases h : executeQueryBody http baseUrl v with
  | ok b => exact ⟨b, rfl⟩
  | error e => cases e <;> simp [handleExn]

/-! ## Characterization of one executor iteration -/

theorem resolvePhase_ok_spec {env : ExecEnv} {st : ExecState} {id : String}
    {nd : NodeEntry} {plan1 : Plan} {prevv : Value}
    (h : resolvePhase env st id nd = .ok (plan1, prevv)) :
    lookupEntry plan1 id =
      (lookupEntry st.plan id).map (fun e => { e with output := some prevv }) ∧
    (∀ k, k ≠ id → lookupEntry plan1 k = lookupEntry st.plan k) := by
  by_cases hat : nd.atomic
  · obtain ⟨w, hw⟩ := execute_query_ok env.http env.baseUrl (.str nd.query)
    simp only [resolvePhase, if_pos hat, hw, Except.ok.injEq, Prod.mk.injEq] at h
    obtain ⟨h1, h2⟩ := h
    subst h2
    constructor
    · rw [← h1, lookupEntry_setOutput_self]
    · intro k hk
      rw [← h1, lookupEntry_setOutput_ne _ _ _ _ hk]
  · cases hp : st.prev with
    | none => simp [resolvePhase, if_neg hat, hp] at h
    | some pv =>
        obtain ⟨w, hw⟩ := execute_query_ok env.http env.baseUrl
          (env.llm (resolveMsg env st id nd pv))
        simp only [resolvePhase, if_neg hat, hp, hw, Except.ok.injEq,
          Prod.mk.injEq] at h
        obtain ⟨h1, h2⟩ := h
        subst h2
        constructor
        · rw [← h1, lookupEntry_setOutput_self, lookupEntry_setOutput_self]
          cases lookupEntry st.plan id <;> rfl
        · intro k hk
          rw [← h1, lookupEntry_setOutput_ne _ _ _ _ hk,
            lookupEntry_setOutput_ne _ _ _ _ hk]

theorem execNode_ok_spec {env : ExecEnv} {st : ExecState} {id : String}
    {st' : ExecState} (h : execNode env st id = .ok st') :
    ∃ nd' prevv,
      nd'.output = some prevv ∧
      st'.prev = some (env.llm (.review nd' prevv)) ∧
      lookupEntry st'.plan id =
        some { nd' with output := some (env.llm (.review nd' prevv)) } ∧
      (∀ k, k ≠ id → lookupEntry st'.plan k = lookupEntry st.plan k) ∧
      (∀ k, (lookupEntry st'.plan k).map entryShape =
        (lookupEntry st.plan k).map entryShape) := by
  cases h0 : lookupEntry st.plan id with
  | none => simp [execNode, h0] at h
  | some nd =>
      cases hr : resolvePhase env st id nd with
      | error e => simp [execNode, h0, hr] at h
      | ok pr =>
          obtain ⟨plan1, prevv⟩ := pr
          obtain ⟨hl1, hl2⟩ := resolvePhase_ok_spec hr
          rw [h0] at hl1
          simp only [Option.map_some'] at hl1
          simp only [execNode, h0, hr, hl1] at h
          rw [Except.ok.injEq] at h
          subst h
          refine ⟨{ nd with output := some prevv }, prevv, rfl, rfl, ?_, ?_, ?_⟩
          · show lookupEntry (setOutput plan1 id _) id = _
            rw [lookupEntry_setOutput_self, hl1]
            rfl
          · intro k hk
            show lookupEntry (setOutput plan1 id _) k = _
            rw [lookupEntry_setOutput_ne _ _ _ _ hk, hl2 k hk]
          · intro k
            show (lookupEntry (setOutput plan1 id _) k).map entryShape = _
            rw [lookupEntry_setOutput_shape]
            by_cases hk : k = id
            · subst hk
              rw [hl1, h0]
              rfl
            · rw [hl2 k hk]

/-! ## Characterization of the whole loop -/

theorem runNodes_ok_spec {env : ExecEnv} :
    ∀ {L : List String} {st st' : ExecState}, runNodes env st L = .ok st' →
      (∀ k, (lookupEntry st'.plan k).map entryShape =
        (lookupEntry st.plan k).map entryShape) ∧
      (∀ id ∈ L, ∃ nd' prevv, nd'.output = some prevv ∧
        (lookupEntry st'.plan id).bind NodeEntry.output =
          some (env.llm (.review nd' prevv))) ∧
      (∀ k, k ∉ L → lookupEntry st'.plan k = lookupEntry st.plan k) := by
  intro L
  induction L with
  | nil =>
      intro st st' h
      obtain rfl : st = st' := by simpa [runNodes] using h
      exact ⟨fun _ => rfl, by simp, fun _ _ => rfl⟩
  | cons id0 rest ih =>
      intro st st' h
      unfold runNodes at h
      cases h0 : execNode env st id0 with
      | error e => rw [h0] at h; exact absurd h (by simp)
      | ok st1 =>
          rw [h0] at h
          obtain ⟨hshape, hmem, hout⟩ := ih h
          obtain ⟨nd', prevv, hnd', _, hself, hne, hshape1⟩ := execNode_ok_spec h0
          refine ⟨?_, ?_, ?_⟩
          · intro k
            rw [hshape k, hshape1 k]
          · intro id hid
            rcases List.mem_cons.mp hid with rfl | hr
            · by_cases hrest : id ∈ rest
              · exact hmem id hrest
              · refine ⟨nd', prevv, hnd', ?_⟩
                rw [hout id hrest, hself]
                rfl
            · exact hmem id hr
          · intro k hk
            have hk0 : k ≠ id0 := fun hkeq => hk (hkeq ▸ List.mem_cons_self _ _)
            have hkr : k ∉ rest := fun hkr => hk (List.mem_cons_of_mem _ hkr)
            rw [hout k hkr, hne k hk0]

/-! ## Scheduler correctness: invariants of the Kahn loop -/

theorem adjMatrix_lt {p : Plan} {a b : Nat} (h : adjMatrix p a b = true) :
    a < p.length ∧ b < p.length := by
  unfold adjMatrix at h
  cases ha : p[a]? with
  | none => simp [ha] at h
  | some ka =>
      cases hb : p[b]? with
      | none => simp [ha, hb] at h
      | some kb =>
          exact ⟨(List.getElem?_eq_some.mp ha).1, (List.getElem?_eq_some.mp hb).1⟩

/-- Summing a pointwise bound: if each element loses at least one unit when
the filter keeps it, the sum drops by at least the filter's length. -/
theorem sum_sub_filter (d d' : Nat → Nat) (pred : Nat → Bool) :
    ∀ l : List Nat, (∀ j ∈ l, d' j + (if pred j then 1 else 0) ≤ d j) →
      (l.map d').sum + (l.filter pred).length ≤ (l.map d).sum := by
  intro l
  induction l with
  | nil => simp
  | cons a t ih =>
      intro h
      have ha := h a (List.mem_cons_self _ _)
      have iht := ih (fun j hj => h j (List.mem_cons_of_mem _ hj))
      by_cases hp : pred a = true
      · rw [List.map_cons, List.sum_cons, List.map_cons, List.sum_cons,
          List.filter_cons, hp, if_pos rfl, List.length_cons]
        rw [hp, if_pos rfl] at ha
        omega
      · have hp' : pred a = false := by revert hp; cases pred a <;> simp
        rw [List.map_cons, List.sum_cons, List.map_cons, List.sum_cons,
          List.filter_cons, hp', if_neg (by simp)]
        rw [hp', if_neg (by simp)] at ha
        omega

/-- A decomposition of a list at an element absent from both prefixes is
unique. -/
theorem split_unique {α : Type} {w : α} :
    ∀ {t1 t2 s1 s2 : List α}, t1 ++ w :: t2 = s1 ++ w :: s2 →
      w ∉ t1 → w ∉ s1 → t1 = s1 ∧ t2 = s2 := by
  intro t1
  induction t1 with
  | nil =>
      intro t2 s1 s2 h _ h2
      cases s1 with
      | nil => simpa using h
      | cons b s1' =>
          simp only [List.nil_append, List.cons_append, List.cons.injEq] at h
          exact absurd (h.1 ▸ List.mem_cons_self _ _) (h.1 ▸ h2)
  | cons a t1' ih =>
      intro t2 s1 s2 h h1 h2
      cases s1 with
      | nil =>
          simp only [List.cons_append, List.nil_append, List.cons.injEq] at h
          exact absurd (h.1 ▸ List.mem_cons_self _ _) (fun hw => h1 (h.1 ▸ hw))
      | cons b s1' =>
          simp only [List.cons_append, List.cons.injEq] at h
          obtain ⟨rfl, h'⟩ := h
          have h1' : w ∉ t1' := fun hw => h1 (List.mem_cons_of_mem _ hw)
          have h2' : w ∉ s1' := fun hw => h2 (List.mem_cons_of_mem _ hw)
          obtain ⟨rfl, rfl⟩ := ih h' h1' h2'
          exact ⟨rfl, rfl⟩

/-- Filtering additionally by `· ≠ u` removes exactly one element when `u`
occurs in the (duplicate-free) list and satisfies the filter. -/
theorem filter_and_ne_length {u : Nat} (P : Nat → Bool) (hPu : P u = true) :
    ∀ {l : List Nat}, l.Nodup → u ∈ l →
      (l.filter (fun i => P i && decide (i ≠ u))).length = (l.filter P).length - 1 := by
  intro l
  induction l with
  | nil => intro _ h; simp at h
  | cons a t ih =>
      intro hnd hu
      rcases List.mem_cons.mp hu with he | hut
      · have hPa : P a = true := he ▸ hPu
        have hanotin : a ∉ t := (List.nodup_cons.mp hnd).1
        have hcong : t.filter (fun i => P i && decide (i ≠ u)) = t.filter P := by
          apply List.filter_congr
          intro i hi
          have hiu : i ≠ u := fun hh => hanotin (he ▸ hh ▸ hi)
          simp [hiu]
        have hhead : (P a && decide (a ≠ u)) = false := by
          have ha : a = u := he.symm
          simp [ha]
        rw [List.filter_cons, List.filter_cons, hhead, hPa,
          if_neg (by simp), if_pos rfl, hcong]
        simp
      · have hnd' := (List.nodup_cons.mp hnd).2
        have ihr := ih hnd' hut
        have hpos : 0 < (t.filter P).length :=
          List.length_pos_of_mem (List.mem_filter.mpr ⟨hut, hPu⟩)
        have hau : a ≠ u := fun he => (List.nodup_cons.mp hnd).1 (he ▸ hut)
        have hhead : (P a && decide (a ≠ u)) = P a := by simp [hau]
        by_cases hPa : P a = true
        · rw [List.filter_cons, List.filter_cons, hhead, hPa,
            if_pos rfl, if_pos rfl, List.length_cons, List.length_cons, ihr]
          omega
        · have hPa' : P a = false := by revert hPa; cases P a <;> simp
          rw [List.filter_cons, List.filter_cons, hhead, hPa',
            if_neg (by simp), if_neg (by simp)]
          exact ihr

theorem kahnInv_init (p : Plan) : KahnInv p (initQueue p) (inDegree p) [] := by
  refine ⟨List.nodup_nil, (List.nodup_range _).filter _, ?_, ?_, ?_, ?_, ?_, ?_, ?_⟩
  · intro x _; exact List.not_mem_nil x
  · intro x hx; exact List.mem_range.mp (List.mem_filter.mp hx).1
  · intro x hx; exact absurd hx (List.not_mem_nil x)
  · intro j _
    unfold inDegree unemittedDeg
    congr 1
    apply List.filter_congr
    intro i _
    simp
  · intro x hx
    have := (List.mem_filter.mp hx).2
    simpa using this
  · intro j hj hd
    right
    refine List.mem_filter.mpr ⟨List.mem_range.mpr hj, ?_⟩
    simp [hd]
  · intro t1 u t2 h
    exact absurd h (by cases t1 <;> simp)

/-- One iteration of the loop preserves the invariant, and the measure
`|queue| + 2 * Σ degrees` strictly decreases. -/
theorem kahnInv_step (p : Plan) (u : Nat) (rest : List Nat) (d : Nat → Nat)
    (topo : List Nat) (inv : KahnInv p (u :: rest) d topo) :
    KahnInv p
      (rest ++ (List.range p.length).filter (fun v => adjMatrix p u v && d v == 1))
      (fun v => if adjMatrix p u v then d v - 1 else d v)
      (topo ++ [u]) ∧
    sumRange (fun v => if adjMatrix p u v then d v - 1 else d v) p.length +
      ((List.range p.length).filter (fun v => adjMatrix p u v && d v == 1)).length
      ≤ sumRange d p.length := by
  have hu_lt : u < p.length := inv.q_lt u (List.mem_cons_self _ _)
  have hu_deg0 : d u = 0 := inv.queue0 u (List.mem_cons_self _ _)
  have hu_notopo : u ∉ topo := inv.disj u (List.mem_cons_self _ _)
  have hmem_enq : ∀ x,
      x ∈ (List.range p.length).filter (fun v => adjMatrix p u v && d v == 1) ↔
        x < p.length ∧ adjMatrix p u x = true ∧ d x = 1 := by
    intro x
    rw [List.mem_filter, List.mem_range]
    simp [and_assoc]
  have preds_in_topo : ∀ i, adjMatrix p i u = true → i ∈ topo := by
    intro i hi
    have hdeg := inv.deg u hu_lt
    rw [hu_deg0] at hdeg
    have hfil : (List.range p.length).filter
        (fun i => adjMatrix p i u && decide (i ∉ topo)) = [] := by
      apply List.length_eq_zero.mp
      unfold unemittedDeg at hdeg
      omega
    by_contra hnot
    have hmem : i ∈ (List.range p.length).filter
        (fun i => adjMatrix p i u && decide (i ∉ topo)) := by
      refine List.mem_filter.mpr ⟨List.mem_range.mpr (adjMatrix_lt hi).1, ?_⟩
      simp [hi, hnot]
    rw [hfil] at hmem
    exact absurd hmem (List.not_mem_nil i)
  have dpos_of_adj : ∀ j, adjMatrix p u j = true → 1 ≤ d j := by
    intro j hj
    have hdeg := inv.deg j (adjMatrix_lt hj).2
    have hmem : u ∈ (List.range p.length).filter
        (fun i => adjMatrix p i j && decide (i ∉ topo)) := by
      refine List.mem_filter.mpr ⟨List.mem_range.mpr hu_lt, ?_⟩
      simp [hj, hu_notopo]
    have hpos := List.length_pos_of_mem hmem
    rw [hdeg]
    unfold unemittedDeg
    omega
  have htopo'_nodup : (topo ++ [u]).Nodup := by
    rw [List.nodup_append]
    exact ⟨inv.topo_nodup, List.nodup_singleton u,
      fun x hx hxu => hu_notopo ((List.mem_singleton.mp hxu) ▸ hx)⟩
  have hsum : sumRange (fun v => if adjMatrix p u v then d v - 1 else d v) p.length +
      ((List.range p.length).filter (fun v => adjMatrix p u v && d v == 1)).length
      ≤ sumRange d p.length := by
    unfold sumRange
    apply sum_sub_filter
    intro j _
    by_cases hcase : (adjMatrix p u j && d j == 1) = true
    · obtain ⟨h1, h2⟩ : adjMatrix p u j = true ∧ d j = 1 := by simpa using hcase
      rw [if_pos hcase, if_pos h1, h2]
    · rw [if_neg hcase]
      by_cases h1 : adjMatrix p u j = true
      · rw [if_pos h1]; omega
      · rw [if_neg h1]; omega
  refine ⟨⟨htopo'_nodup, ?_, ?_, ?_, ?_, ?_, ?_, ?_, ?_⟩, hsum⟩
  · -- q_nodup
    rw [List.nodup_append]
    refine ⟨(List.nodup_cons.mp inv.q_nodup).2,
      List.Nodup.filter _ (List.nodup_range p.length), ?_⟩
    intro x hxr hxe
    have h0 : d x = 0 := inv.queue0 x (List.mem_cons_of_mem _ hxr)
    have h1 : d x = 1 := ((hmem_enq x).mp hxe).2.2
    omega
  · -- disj
    intro x hx hmem
    rcases List.mem_append.mp hx with hxr | hxe
    · rcases List.mem_append.mp hmem with hxt | hxu
      · exact inv.disj x (List.mem_cons_of_mem _ hxr) hxt
      · exact (List.nodup_cons.mp inv.q_nodup).1
          ((List.mem_singleton.mp hxu) ▸ hxr)
    · obtain ⟨hxlt, hadj, hdx⟩ := (hmem_enq x).mp hxe
      rcases List.mem_append.mp hmem with hxt | hxu
      · obtain ⟨s1, s2, hs⟩ := List.append_of_mem hxt
        have := inv.ordered s1 x s2 hs u hadj
        exact hu_notopo (hs ▸ List.mem_append_left _ this)
      · rw [List.mem_singleton.mp hxu] at hdx
        omega
  · -- q_lt
    intro x hx
    rcases List.mem_append.mp hx with hxr | hxe
    · exact inv.q_lt x (List.mem_cons_of_mem _ hxr)
    · exact ((hmem_enq x).mp hxe).1
  · -- topo_lt
    intro x hx
    rcases List.mem_append.mp hx with hxt | hxu
    · exact inv.topo_lt x hxt
    · exact (List.mem_singleton.mp hxu) ▸ hu_lt
  · -- deg
    intro j hj
    have hdeg := inv.deg j hj
    unfold unemittedDeg
    have hcong : (List.range p.length).filter
        (fun i => adjMatrix p i j && decide (i ∉ topo ++ [u]))
        = (List.range p.length).filter
          (fun i => (adjMatrix p i j && decide (i ∉ topo)) && decide (i ≠ u)) := by
      apply List.filter_congr
      intro i _
      by_cases h1 : i ∈ topo <;> by_cases h2 : i = u <;>
        simp [List.mem_append, h1, h2]
    rw [hcong]
    by_cases hadj : adjMatrix p u j = true
    · have hPu : (adjMatrix p u j && decide (u ∉ topo)) = true := by
        simp [hadj, hu_notopo]
      have hlen := filter_and_ne_length
        (fun i => adjMatrix p i j && decide (i ∉ topo)) hPu
        (List.nodup_range p.length) (List.mem_range.mpr hu_lt)
      rw [hlen, if_pos hadj, hdeg]
      unfold unemittedDeg
      rfl
    · have hcong2 : (List.range p.length).filter
          (fun i => (adjMatrix p i j && decide (i ∉ topo)) && decide (i ≠ u))
          = (List.range p.length).filter
            (fun i => adjMatrix p i j && decide (i ∉ topo)) := by
        apply List.filter_congr
        intro i _
        by_cases hiu : i = u
        · subst hiu
          simp [hadj]
        · simp [hiu]
      rw [hcong2, if_neg hadj, hdeg]
      rfl
  · -- queue0
    intro x hx
    rcases List.mem_append.mp hx with hxr | hxe
    · have h0 : d x = 0 := inv.queue0 x (List.mem_cons_of_mem _ hxr)
      have hadj : adjMatrix p u x ≠ true := by
        intro hadj
        have := dpos_of_adj x hadj
        omega
      simp only [if_neg hadj]
      exact h0
    · obtain ⟨_, hadj, hdx⟩ := (hmem_enq x).mp hxe
      simp only [if_pos hadj, hdx]
  · -- complete0
    intro j hj hdj
    by_cases hadj : adjMatrix p u j = true
    · rw [if_pos hadj] at hdj
      have h1 := dpos_of_adj j hadj
      have hdj1 : d j = 1 := by omega
      exact Or.inr (List.mem_append_right _
        ((hmem_enq j).mpr ⟨hj, hadj, hdj1⟩))
    · rw [if_neg hadj] at hdj
      rcases inv.complete0 j hj hdj with hjt | hjq
      · exact Or.inl (List.mem_append_left _ hjt)
      · rcases List.mem_cons.mp hjq with rfl | hjr
        · exact Or.inl (List.mem_append_right _ (List.mem_singleton.mpr rfl))
        · exact Or.inr (List.mem_append_left _ hjr)
  · -- ordered
    intro t1 w t2 hsplit i hadj
    have hnod2 : (t1 ++ w :: t2).Nodup := hsplit ▸ htopo'_nodup
    have hwnott1 : w ∉ t1 := by
      rw [List.nodup_append] at hnod2
      exact fun hw => hnod2.2.2 hw (List.mem_cons_self _ _)
    by_cases hwu : w = u
    · subst hwu
      have hsplit' : topo ++ w :: ([] : List Nat) = t1 ++ w :: t2 := hsplit
      obtain ⟨h1, _⟩ := split_unique hsplit' hu_notopo hwnott1
      rw [← h1]
      exact preds_in_topo i hadj
    · have hw_in : w ∈ topo := by
        have hw1 : w ∈ topo ++ [u] := by
          rw [hsplit]
          exact List.mem_append_right _ (List.mem_cons_self _ _)
        rcases List.mem_append.mp hw1 with h | h
        · exact h
        · exact absurd (List.mem_singleton.mp h) hwu
      obtain ⟨s1, s2, hs⟩ := List.append_of_mem hw_in
      have hwns1 : w ∉ s1 := by
        have hnod3 : (s1 ++ w :: s2).Nodup := hs ▸ inv.topo_nodup
        rw [List.nodup_append] at hnod3
        exact fun hw => hnod3.2.2 hw (List.mem_cons_self _ _)
      have hsplit2 : t1 ++ w :: t2 = s1 ++ w :: (s2 ++ [u]) := by
        rw [← hsplit, hs]
        simp
      obtain ⟨h1, _⟩ := split_unique hsplit2 hwnott1 hwns1
      rw [h1]
      exact inv.ordered s1 w s2 hs i hadj

/-- When the queue is exhausted, the invariant yields the final properties of
the emitted order: duplicate-freedom, bounds, dependency ordering, and for
each residual node a residual dependency. -/
theorem kahnInv_final (p : Plan) (d : Nat → Nat) (topo : List Nat)
    (inv : KahnInv p [] d topo) :
    topo.Nodup ∧ (∀ x ∈ topo, x < p.length) ∧
    (∀ t1 w t2, topo = t1 ++ w :: t2 → ∀ i, adjMatrix p i w = true → i ∈ t1) ∧
    (∀ j, j < p.length → j ∉ topo →
      ∃ i, i < p.length ∧ adjMatrix p i j = true ∧ i ∉ topo) := by
  refine ⟨inv.topo_nodup, inv.topo_lt, inv.ordered, ?_⟩
  intro j hj hjn
  have hdj : d j ≠ 0 := by
    intro h0
    rcases inv.complete0 j hj h0 with h | h
    · exact hjn h
    · exact absurd h (List.not_mem_nil j)
  have hdeg := inv.deg j hj
  rw [hdeg] at hdj
  unfold unemittedDeg at hdj
  have hne : (List.range p.length).filter
      (fun i => adjMatrix p i j && decide (i ∉ topo)) ≠ [] := by
    intro h
    rw [h] at hdj
    exact hdj rfl
  obtain ⟨i, hi⟩ := List.exists_mem_of_ne_nil _ hne
  have hmem := List.mem_filter.mp hi
  obtain ⟨hadj, hnt⟩ : adjMatrix p i j = true ∧ i ∉ topo := by simpa using hmem.2
  exact ⟨i, List.mem_range.mp hmem.1, hadj, hnt⟩

theorem kahnLoop_spec (p : Plan) :
    ∀ (fuel : Nat) (q : List Nat) (d : Nat → Nat) (topo : List Nat),
      KahnInv p q d topo →
      q.length + 2 * sumRange d p.length ≤ fuel →
      (kahnLoop p fuel q d topo).Nodup ∧
      (∀ x ∈ kahnLoop p fuel q d topo, x < p.length) ∧
      (∀ t1 w t2, kahnLoop p fuel q d topo = t1 ++ w :: t2 →
        ∀ i, adjMatrix p i w = true → i ∈ t1) ∧
      (∀ j, j < p.length → j ∉ kahnLoop p fuel q d topo →
        ∃ i, i < p.length ∧ adjMatrix p i j = true ∧
          i ∉ kahnLoop p fuel q d topo) := by
  intro fuel
  induction fuel with
  | zero =>
      intro q d topo inv hm
      cases q with
      | nil => exact kahnInv_final p d topo inv
      | cons a t =>
          exfalso
          rw [List.length_cons] at hm
          omega
  | succ fuel ih =>
      intro q d topo inv hm
      cases q with
      | nil => exact kahnInv_final p d topo inv
      | cons u rest =>
          obtain ⟨inv', hsum⟩ := kahnInv_step p u rest d topo inv
          have hstep : kahnLoop p (fuel + 1) (u :: rest) d topo =
              kahnLoop p fuel
                (rest ++ (List.range p.length).filter
                  (fun v => adjMatrix p u v && d v == 1))
                (fun v => if adjMatrix p u v then d v - 1 else d v)
                (topo ++ [u]) := rfl
          rw [hstep]
          apply ih _ _ _ inv'
          rw [List.length_append]
          rw [List.length_cons] at hm
          omega

theorem topoIdx_spec (p : Plan) :
    (topoIdx p).Nodup ∧ (∀ x ∈ topoIdx p, x < p.length) ∧
    (∀ t1 w t2, topoIdx p = t1 ++ w :: t2 →
      ∀ i, adjMatrix p i w = true → i ∈ t1) ∧
    (∀ j, j < p.length → j ∉ topoIdx p →
      ∃ i, i < p.length ∧ adjMatrix p i j = true ∧ i ∉ topoIdx p) :=
  kahnLoop_spec p (kahnFuel p) (initQueue p) (inDegree p) []
    (kahnInv_init p) (le_refl _)

/-! ## Cycles: residual nodes, completeness, exclusion -/

theorem reachB_succ (adj : Nat → Nat → Bool) (n : Nat) :
    ∀ fuel x y, reachB adj n fuel x y = true →
      reachB adj n (fuel + 1) x y = true := by
  intro fuel
  induction fuel with
  | zero =>
      intro x y h
      have h' : adj x y = true := h
      simp [reachB, h']
  | succ f ihf =>
      intro x y h
      simp only [reachB] at h
      rcases (by simpa using h :
          adj x y = true ∨ ∃ z ∈ List.range n, adj x z = true ∧
            reachB adj n f z y = true) with h1 | ⟨z, hz, h2, h3⟩
      · show (adj x y ||
            (List.range n).any fun z => adj x z && reachB adj n (f + 1) z y) = true
        simp [h1]
      · have hstep := ihf z y h3
        show (adj x y ||
            (List.range n).any fun z => adj x z && reachB adj n (f + 1) z y) = true
        simp only [Bool.or_eq_true, List.any_eq_true]
        exact Or.inr ⟨z, hz, by simp [h2, hstep]⟩

theorem reachB_mono (adj : Nat → Nat → Bool) (n : Nat) {f1 f2 : Nat}
    (h : f1 ≤ f2) : ∀ x y, reachB adj n f1 x y = true →
      reachB adj n f2 x y = true := by
  induction h with
  | refl => exact fun x y hr => hr
  | step _ ih => exact fun x y hr => reachB_succ adj n _ x y (ih x y hr)

theorem reachB_of_chain (adj : Nat → Nat → Bool) (n : Nat) (g : Nat → Nat)
    (hg : ∀ k, adj (g (k + 1)) (g k) = true) (hlt : ∀ k, g k < n) :
    ∀ len a, reachB adj n len (g (a + len + 1)) (g a) = true := by
  intro len
  induction len with
  | zero => intro a; exact hg a
  | succ len ihl =>
      intro a
      have hidx : a + (len + 1) + 1 = (a + len + 1) + 1 := by omega
      rw [hidx]
      simp only [reachB, Bool.or_eq_true, List.any_eq_true]
      refine Or.inr ⟨g (a + len + 1), List.mem_range.mpr (hlt _), ?_⟩
      simp [hg (a + len + 1), ihl a]

theorem cycle_of_closed_preds (adj : Nat → Nat → Bool) (n : Nat)
    (U : List Nat) (hne : U ≠ []) (hlt : ∀ j ∈ U, j < n)
    (hpred : ∀ j ∈ U, ∃ i ∈ U, adj i j = true) :
    ∃ x, x < n ∧ reachB adj n n x x = true := by
  obtain ⟨u0, hu0⟩ : ∃ u0, u0 ∈ U := by
    cases U with
    | nil => exact absurd rfl hne
    | cons a t => exact ⟨a, List.mem_cons_self _ _⟩
  set pick : Nat → Nat := fun j => (U.find? (fun i => adj i j)).getD 0 with hpickdef
  have hpick : ∀ j ∈ U, pick j ∈ U ∧ adj (pick j) j = true := by
    intro j hj
    obtain ⟨i, hiU, hadj⟩ := hpred j hj
    cases hf : U.find? (fun i => adj i j) with
    | none =>
        have := List.find?_eq_none.mp hf i hiU
        exact absurd hadj this
    | some w =>
        have hw1 := List.mem_of_find?_eq_some hf
        have hw2 := List.find?_some hf
        constructor
        · simpa [hpickdef, hf] using hw1
        · simpa [hpickdef, hf] using hw2
  set g : Nat → Nat := fun k => pick^[k] u0 with hgdef
  have hgsucc : ∀ k, g (k + 1) = pick (g k) := by
    intro k
    simp [hgdef, Function.iterate_succ_apply']
  have hgU : ∀ k, g k ∈ U := by
    intro k
    induction k with
    | zero => simpa [hgdef] using hu0
    | succ k ihk =>
        rw [hgsucc k]
        exact (hpick _ ihk).1
  have hchain : ∀ k, adj (g (k + 1)) (g k) = true := by
    intro k
    rw [hgsucc k]
    exact (hpick _ (hgU k)).2
  have hglt : ∀ k, g k < n := fun k => hlt _ (hgU k)
  have key : ∀ k l, k < l → l ≤ n → g k = g l →
      ∃ x, x < n ∧ reachB adj n n x x = true := by
    intro k l hkl hln hgeq
    have hchn := reachB_of_chain adj n g hchain hglt (l - k - 1) k
    have hidx : k + (l - k - 1) + 1 = l := by omega
    rw [hidx, ← hgeq] at hchn
    exact ⟨g k, hglt k, reachB_mono adj n (by omega : l - k - 1 ≤ n) _ _ hchn⟩
  have hmap : ∀ k ∈ Finset.range (n + 1), g k ∈ Finset.range n := by
    intro k _
    exact Finset.mem_range.mpr (hglt k)
  have hcard : (Finset.range n).card < (Finset.range (n + 1)).card := by simp
  obtain ⟨k, hk, l, hl, hkl, heq⟩ :=
    Finset.exists_ne_map_eq_of_card_lt_of_maps_to hcard hmap
  rcases lt_trichotomy k l with h | h | h
  · exact key k l h (by have := Finset.mem_range.mp hl; omega) heq
  · exact absurd h hkl
  · exact key l k h (by have := Finset.mem_range.mp hk; omega) heq.symm

/-- Acyclic plans: the Kahn sort emits every node. -/
theorem topoIdx_complete (p : Plan) (hacyc : hasCycleB p = false) :
    ∀ j, j < p.length → j ∈ topoIdx p := by
  intro j hj
  by_contra hjn
  obtain ⟨-, -, -, hres⟩ := topoIdx_spec p
  have hUmem : ∀ x, x ∈ (List.range p.length).filter
      (fun x => decide (x ∉ topoIdx p)) ↔ x < p.length ∧ x ∉ topoIdx p := by
    intro x
    rw [List.mem_filter, List.mem_range]
    simp
  have hne : (List.range p.length).filter (fun x => decide (x ∉ topoIdx p)) ≠ [] := by
    intro h0
    have := (hUmem j).mpr ⟨hj, hjn⟩
    rw [h0] at this
    exact absurd this (List.not_mem_nil j)
  have hlt : ∀ x ∈ (List.range p.length).filter (fun x => decide (x ∉ topoIdx p)),
      x < p.length := fun x hx => ((hUmem x).mp hx).1
  have hpred : ∀ x ∈ (List.range p.length).filter (fun x => decide (x ∉ topoIdx p)),
      ∃ i ∈ (List.range p.length).filter (fun x => decide (x ∉ topoIdx p)),
        adjMatrix p i x = true := by
    intro x hx
    obtain ⟨hxlt, hxn⟩ := (hUmem x).mp hx
    obtain ⟨i, hilt, hadj, hin⟩ := hres x hxlt hxn
    exact ⟨i, (hUmem i).mpr ⟨hilt, hin⟩, hadj⟩
  obtain ⟨x, hx, hreach⟩ := cycle_of_closed_preds (adjMatrix p) p.length _ hne hlt hpred
  have hcyc : hasCycleB p = true := by
    unfold hasCycleB
    rw [List.any_eq_true]
    exact ⟨x, List.mem_range.mpr hx, hreach⟩
  rw [hacyc] at hcyc
  exact absurd hcyc (by simp)

theorem adjPath_of_reachB (adj : Nat → Nat → Bool) (n : Nat) :
    ∀ fuel x y, reachB adj n fuel x y = true → AdjPath adj x y := by
  intro fuel
  induction fuel with
  | zero => exact fun x y h => .single h
  | succ f ihf =>
      intro x y h
      simp only [reachB] at h
      rcases (by simpa using h :
          adj x y = true ∨ ∃ z ∈ List.range n, adj x z = true ∧
            reachB adj n f z y = true) with h1 | ⟨z, _, h2, h3⟩
      · exact .single h1
      · exact .cons h2 (ihf z y h3)

/-- In an order satisfying the dependency-ordering property, the source of
any dependency path into an emitted node appears in the prefix before it. -/
theorem adjPath_before {p : Plan} {res : List Nat}
    (hord : ∀ t1 w t2, res = t1 ++ w :: t2 →
      ∀ i, adjMatrix p i w = true → i ∈ t1) :
    ∀ {x y : Nat}, AdjPath (adjMatrix p) x y →
      ∀ t1 t2, res = t1 ++ y :: t2 → x ∈ t1 := by
  intro x y hp
  induction hp with
  | @single x' y' hadj =>
      intro t1 t2 hsp
      exact hord t1 y' t2 hsp x' hadj
  | @cons x' z' y' hadj _ ihz =>
      intro t1 t2 hsp
      have hz := ihz t1 t2 hsp
      obtain ⟨s1, s2, hs⟩ := List.append_of_mem hz
      have hsp2 : res = s1 ++ z' :: (s2 ++ y' :: t2) := by
        rw [hsp, hs]
        simp
      have hx := hord s1 z' (s2 ++ y' :: t2) hsp2 x' hadj
      exact hs ▸ List.mem_append_left _ hx

/-- A node lying on a dependency cycle is never emitted by the Kahn sort. -/
theorem topoIdx_cycle_not_mem (p : Plan) {i : Nat}
    (hreach : reachB (adjMatrix p) p.length p.length i i = true) :
    i ∉ topoIdx p := by
  intro hmem
  obtain ⟨hnodup, -, hord, -⟩ := topoIdx_spec p
  obtain ⟨t1, t2, hs⟩ := List.append_of_mem hmem
  have hpath := adjPath_of_reachB (adjMatrix p) p.length _ _ _ hreach
  have hin : i ∈ t1 := adjPath_before hord hpath t1 t2 hs
  have hnod2 : (t1 ++ i :: t2).Nodup := hs ▸ hnodup
  rw [List.nodup_append] at hnod2
  exact hnod2.2.2 hin (List.mem_cons_self _ _)

/-! ## From indices back to node ids -/

theorem keyAt_mem_nodeIds {p : Plan} {i : Nat} (h : i < p.length) :
    keyAt p i ∈ nodeIds p := by
  have hg : p[i]? = some (p.get ⟨i, h⟩) := by
    rw [List.getElem?_eq_getElem h]
    rfl
  unfold keyAt
  rw [hg]
  exact List.mem_map_of_mem _ (List.get_mem p i h)

theorem keyAt_inj {p : Plan} (hnd : (nodeIds p).Nodup) {i j : Nat}
    (hi : i < p.length) (hj : j < p.length) (h : keyAt p i = keyAt p j) :
    i = j := by
  have hlen : (nodeIds p).length = p.length := List.length_map _ _
  have hkey : ∀ k (hk : k < p.length),
      keyAt p k = (nodeIds p).get ⟨k, hlen ▸ hk⟩ := by
    intro k hk
    unfold keyAt nodeIds
    rw [List.getElem?_eq_getElem hk]
    simp [List.get_eq_getElem, List.getElem_map]
  rw [hkey i hi, hkey j hj] at h
  have := List.nodup_iff_injective_get.mp hnd h
  simpa using this

theorem lookupEntry_of_getElem {p : Plan} (hnd : (nodeIds p).Nodup) :
    ∀ {i : Nat} {a : String} {nd : NodeEntry}, p[i]? = some (a, nd) →
      lookupEntry p a = some nd := by
  induction p with
  | nil => intro i a nd h; simp at h
  | cons kv t ih =>
      intro i a nd h
      cases i with
      | zero =>
          rw [List.getElem?_cons_zero] at h
          obtain rfl : kv = (a, nd) := by simpa using h
          simp [lookupEntry]
      | succ i' =>
          rw [List.getElem?_cons_succ] at h
          have hnd' : (nodeIds t).Nodup := (List.nodup_cons.mp hnd).2
          have hmem : a ∈ nodeIds t := by
            have h1 : (a, nd) ∈ t := by
              have := List.getElem?_eq_some.mp h
              obtain ⟨hlt, hget⟩ := this
              exact hget ▸ List.getElem_mem hlt
            exact List.mem_map_of_mem _ h1
          have hne : kv.fst ≠ a := by
            intro he
            exact (List.nodup_cons.mp hnd).1 (he ▸ hmem)
          rw [show lookupEntry (kv :: t) a =
            if kv.fst == a then some kv.snd else lookupEntry t a from rfl]
          rw [if_neg (by simp [hne])]
          exact ih hnd' h

theorem exists_getElem_of_lookupEntry {p : Plan} :
    ∀ {a : String} {nd : NodeEntry}, lookupEntry p a = some nd →
      ∃ i, i < p.length ∧ p[i]? = some (a, nd) := by
  induction p with
  | nil => intro a nd h; simp [lookupEntry] at h
  | cons kv t ih =>
      intro a nd h
      by_cases he : kv.fst = a
      · refine ⟨0, by simp, ?_⟩
        rw [List.getElem?_cons_zero]
        have h2 : kv.snd = nd := by
          have h3 := h
          simp [lookupEntry, he] at h3
          exact h3
        have hkv : kv = (a, nd) := by
          cases kv
          simp_all
        rw [hkv]
      · have : lookupEntry t a = some nd := by
          simpa [lookupEntry, he] using h
        obtain ⟨i, hi, hg⟩ := ih this
        exact ⟨i + 1, by simpa using Nat.succ_lt_succ hi, by
          rw [List.getElem?_cons_succ]; exact hg⟩

theorem adjMatrix_of_dep {p : Plan} {ia ib : Nat} {a b : String}
    {na nb : NodeEntry} (ha : p[ia]? = some (a, na)) (hb : p[ib]? = some (b, nb))
    (hdep : a ∈ nb.depends) : adjMatrix p ia ib = true := by
  unfold adjMatrix
  rw [ha, hb]
  simpa using hdep

/-- Splitting a mapped list around an element of its image. -/
theorem map_eq_append_cons {α β : Type} (f : α → β) :
    ∀ (l : List α) (xs : List β) (y : β) (ys : List β),
      l.map f = xs ++ y :: ys →
      ∃ l1 u l2, l = l1 ++ u :: l2 ∧ l1.map f = xs ∧ f u = y ∧ l2.map f = ys := by
  intro l
  induction l with
  | nil =>
      intro xs y ys h
      rw [List.map_nil] at h
      exact absurd h.symm (by cases xs <;> simp)
  | cons a t ihl =>
      intro xs y ys h
      cases xs with
      | nil =>
          rw [List.map_cons, List.nil_append] at h
          obtain ⟨h1, h2⟩ := List.cons.inj h
          exact ⟨[], a, t, by simp, by simp, h1, h2⟩
      | cons x xs' =>
          rw [List.map_cons, List.cons_append] at h
          obtain ⟨h1, h2⟩ := List.cons.inj h
          obtain ⟨l1, u, l2, hl, hm1, hm2, hm3⟩ := ihl xs' y ys h2
          exact ⟨a :: l1, u, l2, by simp [hl], by simp [hm1, h1], hm2, hm3⟩

theorem topoOrder_nodup (p : Plan) (hnd : (nodeIds p).Nodup) :
    (topoOrder p).Nodup := by
  obtain ⟨hnodup, hlt, -, -⟩ := topoIdx_spec p
  unfold topoOrder
  exact List.Nodup.map_on
    (fun i hi j hj heq => keyAt_inj hnd (hlt i hi) (hlt j hj) heq) hnodup

theorem topoOrder_subset (p : Plan) : ∀ a ∈ topoOrder p, a ∈ nodeIds p := by
  intro a ha
  obtain ⟨i, hi, rfl⟩ := List.mem_map.mp ha
  obtain ⟨-, hlt, -, -⟩ := topoIdx_spec p
  exact keyAt_mem_nodeIds (hlt i hi)

theorem topoOrder_complete (p : Plan) (hacyc : hasCycleB p = false) :
    ∀ a ∈ nodeIds p, a ∈ topoOrder p := by
  intro a ha
  obtain ⟨kv, hkv, hfst⟩ := List.mem_map.mp ha
  obtain ⟨i, hi, hgi⟩ := List.getElem_of_mem hkv
  have hkey : keyAt p i = a := by
    unfold keyAt
    rw [List.getElem?_eq_getElem hi, hgi]
    exact hfst
  have hmem := topoIdx_complete p hacyc i hi
  exact hkey ▸ List.mem_map_of_mem _ hmem

/-- If node `b` lists `a` among its dependencies, then in any decomposition
of the topological order at `b`, `a` lies in the preceding prefix. -/
theorem topoOrder_dep_before (p : Plan) (hnd : (nodeIds p).Nodup)
    {t1 t2 : List String} {b : String} (hsp : topoOrder p = t1 ++ b :: t2)
    {nb : NodeEntry} (hlook : lookupEntry p b = some nb)
    {a : String} (ha : a ∈ nb.depends) (hak : a ∈ nodeIds p) :
    a ∈ t1 := by
  obtain ⟨-, hlt, hord, -⟩ := topoIdx_spec p
  obtain ⟨s1, u, s2, hsI, hm1, hm2, hm3⟩ :=
    map_eq_append_cons (keyAt p) _ _ _ _ hsp
  have hu_mem : u ∈ topoIdx p := by
    rw [hsI]
    exact List.mem_append_right _ (List.mem_cons_self _ _)
  have hu_lt := hlt u hu_mem
  have hkvb : p[u]? = some (b, nb) := by
    obtain ⟨iu, hiu⟩ := exists_getElem_of_lookupEntry hlook
    have hkeyu : keyAt p iu = b := by
      unfold keyAt
      rw [hiu.2]
      rfl
    have : iu = u := keyAt_inj hnd hiu.1 hu_lt (hkeyu.trans hm2.symm)
    exact this ▸ hiu.2
  obtain ⟨kva, hkva_mem, hkva_fst⟩ := List.mem_map.mp hak
  obtain ⟨ia, hia, hgia⟩ := List.getElem_of_mem hkva_mem
  have hgia' : p[ia]? = some (a, kva.snd) := by
    rw [List.getElem?_eq_getElem hia, hgia]
    rw [← hkva_fst]
  have hadj : adjMatrix p ia u = true := adjMatrix_of_dep hgia' hkvb ha
  have hin : ia ∈ s1 := hord s1 u s2 hsI ia hadj
  have hkeya : keyAt p ia = a := by
    unfold keyAt
    rw [hgia']
    rfl
  rw [← hm1, ← hkeya]
  exact List.mem_map_of_mem _ hin

theorem indexOf_append_left {a : String} :
    ∀ {l1 : List String} (l2 : List String), a ∈ l1 →
      (l1 ++ l2).indexOf a = l1.indexOf a := by
  intro l1
  induction l1 with
  | nil => intro l2 h; simp at h
  | cons x t ih =>
      intro l2 h
      by_cases hx : x = a
      · subst hx
        simp [List.indexOf_cons_self]
      · have hmem : a ∈ t := by
          rcases List.mem_cons.mp h with he | ht
          · exact absurd he.symm hx
          · exact ht
        rw [List.cons_append, List.indexOf_cons_ne _ (by exact hx),
          List.indexOf_cons_ne _ (by exact hx), ih l2 hmem]

theorem indexOf_append_cons_self {b : String} :
    ∀ {t1 : List String} (t2 : List String), b ∉ t1 →
      (t1 ++ b :: t2).indexOf b = t1.length := by
  intro t1
  induction t1 with
  | nil => intro t2 _; simp [List.indexOf_cons_self]
  | cons x t ih =>
      intro t2 h
      have hx : x ≠ b := fun he => h (he ▸ List.mem_cons_self _ _)
      rw [List.cons_append, List.indexOf_cons_ne _ (by exact hx),
        ih t2 (fun hh => h (List.mem_cons_of_mem _ hh)), List.length_cons]

theorem indexOf_lt_of_split {t1 t2 : List String} {a b : String}
    (hnd : (t1 ++ b :: t2).Nodup) (ha : a ∈ t1) :
    (t1 ++ b :: t2).indexOf a < (t1 ++ b :: t2).indexOf b := by
  have hb_t1 : b ∉ t1 := by
    rw [List.nodup_append] at hnd
    exact fun h => hnd.2.2 h (List.mem_cons_self _ _)
  rw [indexOf_append_left _ ha, indexOf_append_cons_self _ hb_t1]
  exact List.indexOf_lt_length.mpr ha

/-- A node on a dependency cycle never appears in `topo_order`. -/
theorem onCycleB_not_mem_topoOrder (p : Plan) (hnd : (nodeIds p).Nodup)
    {x : String} (hcyc : onCycleB p x = true) : x ∉ topoOrder p := by
  unfold onCycleB at hcyc
  cases hf : idxOfKey p x with
  | none => rw [hf] at hcyc; simp at hcyc
  | some i =>
      rw [hf] at hcyc
      have hi_mem : i ∈ List.range p.length := List.mem_of_find?_eq_some hf
      have hi_lt : i < p.length := List.mem_range.mp hi_mem
      have hkey : keyAt p i = x := by simpa using List.find?_some hf
      intro hmem
      obtain ⟨j, hj_mem, hj_eq⟩ := List.mem_map.mp hmem
      obtain ⟨-, hlt, -, -⟩ := topoIdx_spec p
      have hji : j = i := keyAt_inj hnd (hlt j hj_mem) hi_lt
        (by rw [hj_eq, hkey])
      exact topoIdx_cycle_not_mem p hcyc (hji ▸ hj_mem)

/-! ## Remaining glue lemmas -/

/-- When the `KeyError` scan finds nothing, every dependency id of every
looked-up node is a key of the plan. -/
theorem depsClosed_of_firstMissingDep {p : Plan}
    (h : firstMissingDep p = none) {b : String} {nb : NodeEntry}
    (hlook : lookupEntry p b = some nb) : ∀ a ∈ nb.depends, a ∈ nodeIds p := by
  intro a ha
  obtain ⟨i, hi, hg⟩ := exists_getElem_of_lookupEntry hlook
  have hmem : (b, nb) ∈ p := by
    obtain ⟨hlt, hget⟩ := List.getElem?_eq_some.mp hg
    exact hget ▸ List.getElem_mem hlt
  have hnone := List.findSome?_eq_none_iff.mp h _ hmem
  have := List.find?_eq_none.mp hnone a ha
  simpa using this

/-- Component-wise reading of an `entryShape` equality. -/
theorem shape_eq_components {o1 o2 : Option NodeEntry}
    (h : o1.map entryShape = o2.map entryShape) :
    o1.map NodeEntry.description = o2.map NodeEntry.description ∧
    o1.map NodeEntry.depends = o2.map NodeEntry.depends ∧
    o1.map NodeEntry.atomic = o2.map NodeEntry.atomic ∧
    o1.map NodeEntry.query = o2.map NodeEntry.query ∧
    o1.map NodeEntry.error = o2.map NodeEntry.error ∧
    o1.map NodeEntry.status = o2.map NodeEntry.status := by
  cases o1 <;> cases o2 <;> simp_all [entryShape]

theorem getLast?_append_right {α : Type} {l1 l2 : List α} (h : l2 ≠ []) :
    (l1 ++ l2).getLast? = l2.getLast? := by
  rw [List.getLast?_append]
  cases hl : l2.getLast? with
  | none => exact absurd (List.getLast?_eq_none_iff.mp hl) h
  | some c => rfl

/-! ## The claims -/

/-- **C1**: For every plan mapping whose dependency relation is acyclic and
whose `depends` lists only name keys of the mapping, the order computed by
`execute_dag`'s Kahn-style sort over the adjacency matrix contains every node
of the plan exactly once, and for every pair of nodes A and B where A is
listed in B's `depends`, A appears strictly before B in that order. -/
theorem claim1_topological_order (p : Plan)
    (hnd : (nodeIds p).Nodup)
    (hdeps : firstMissingDep p = none)
    (hacyc : hasCycleB p = false) :
    (∀ id, id ∈ nodeIds p → (topoOrder p).count id = 1) ∧
    (∀ id, id ∈ topoOrder p → id ∈ nodeIds p) ∧
    (∀ b nb a, lookupEntry p b = some nb → a ∈ nb.depends →
      (topoOrder p).indexOf a < (topoOrder p).indexOf b) := by
  have hnodup := topoOrder_nodup p hnd
  refine ⟨?_, topoOrder_subset p, ?_⟩
  · intro id hid
    exact List.count_eq_one_of_mem hnodup (topoOrder_complete p hacyc id hid)
  · intro b nb a hlook ha
    have hbk : b ∈ nodeIds p := by
      obtain ⟨i, hi, hg⟩ := exists_getElem_of_lookupEntry hlook
      obtain ⟨hlt, hget⟩ := List.getElem?_eq_some.mp hg
      exact List.mem_map_of_mem _ (hget ▸ List.getElem_mem hlt)
    have hbo : b ∈ topoOrder p := topoOrder_complete p hacyc b hbk
    obtain ⟨t1, t2, hsp⟩ := List.append_of_mem hbo
    have hak : a ∈ nodeIds p := depsClosed_of_firstMissingDep hdeps hlook a ha
    have hat1 : a ∈ t1 := topoOrder_dep_before p hnd hsp hlook ha hak
    rw [hsp]
    exact indexOf_lt_of_split (hsp ▸ hnodup) hat1

/-- Witness for **C1** on a concrete three-node plan. -/
theorem claim1_witness :
    ((nodeIds plan1).Nodup ∧ firstMissingDep plan1 = none ∧
      hasCycleB plan1 = false) ∧
    (topoOrder plan1).count "b" = 1 ∧
    (topoOrder plan1).indexOf "a" < (topoOrder plan1).indexOf "c" := by
  refine ⟨⟨by decide, by decide, by decide⟩, ?_, ?_⟩
  · exact (claim1_topological_order plan1 (by decide) (by decide)
      (by decide)).1 "b" (by decide)
  · exact (claim1_topological_order plan1 (by decide) (by decide)
      (by decide)).2.2 "c"
      ⟨some "aggregate", ["a", "b"], false, "", none, none, "pending"⟩
      "a" (by decide) (by decide)

/-- **C2** counterexample: with a store whose connection always fails, node
`a`'s atomic query fails (the store call returns the exception object), yet
the final shared structure records no `error` on `a`, `a`'s status is still
`pending`, and node `b` — later in the order — is dispatched and receives an
`output`: the run is not halted. -/
theorem claim2_counterexample :
    FiwareClient.execute_query failHttp cenvFail.baseUrl (.str "qa") =
      .ok (.exnVal (.connectionError "connection refused")) ∧
    ((finalPlanOf (runNodes cenvFail ⟨plan2, none⟩ (topoOrder plan2))).bind
      (fun pl => lookupEntry pl "a")).map (fun nd => (nd.error, nd.status)) =
      some (none, "pending") ∧
    ((finalPlanOf (runNodes cenvFail ⟨plan2, none⟩ (topoOrder plan2))).bind
      (fun pl => lookupEntry pl "b")).map (fun nd => nd.output.isSome) =
      some true := by
  refine ⟨by decide, by decide, by decide⟩

/-- **C2** amended: failures of the data-store query are returned as values
and stored as the node's `output` (later replaced by the review reply); the
node's `error` and `status` fields are never written, and the run does not
halt on a store failure — when the walk over the topological order returns,
every node of the order has been dispatched and carries an `output`. -/
theorem claim2_amended (env : ExecEnv) (p : Plan) (st : ExecState)
    (hrun : runNodes env ⟨p, none⟩ (topoOrder p) = .ok st) :
    (∀ id, (lookupEntry st.plan id).map NodeEntry.error =
      (lookupEntry p id).map NodeEntry.error) ∧
    (∀ id, (lookupEntry st.plan id).map NodeEntry.status =
      (lookupEntry p id).map NodeEntry.status) ∧
    (∀ id ∈ topoOrder p,
      ((lookupEntry st.plan id).bind NodeEntry.output).isSome = true) := by
  obtain ⟨hshape, hmem, -⟩ := runNodes_ok_spec hrun
  refine ⟨?_, ?_, ?_⟩
  · intro id
    exact (shape_eq_components (hshape id)).2.2.2.2.1
  · intro id
    exact (shape_eq_components (hshape id)).2.2.2.2.2
  · intro id hid
    obtain ⟨nd', prevv, -, hout⟩ := hmem id hid
    rw [hout]
    rfl

/-- Witness for **C2** amended, on the failing-store run of `plan2`. -/
theorem claim2_amended_witness :
    (lookupEntry (okState (runNodes cenvFail ⟨plan2, none⟩
      (topoOrder plan2))).plan "a").map NodeEntry.error =
      (lookupEntry plan2 "a").map NodeEntry.error :=
  (claim2_amended cenvFail plan2 _ (by decide)).1 "a"

/-- **C3**: for every executed node the oracle review reply is stored as that
node's `output`, replacing the value previously written there (which itself
holds the raw result in the atomic case); when the order completes without
failure, `execute_dag` returns the `output` of the last node of the order. -/
theorem claim3_review_output (env : ExecEnv) (p : Plan) (st : ExecState)
    (lastId : String)
    (hmiss : firstMissingDep p = none)
    (hrun : runNodes env ⟨p, none⟩ (topoOrder p) = .ok st)
    (hlast : (topoOrder p).getLast? = some lastId) :
    (∀ id ∈ topoOrder p, ∃ nd' prevv, nd'.output = some prevv ∧
      (lookupEntry st.plan id).bind NodeEntry.output =
        some (env.llm (.review nd' prevv))) ∧
    ∃ v, PlanExecutor.execute_dag env p = .ok v ∧
      (lookupEntry st.plan lastId).bind NodeEntry.output = some v := by
  obtain ⟨-, hmem, -⟩ := runNodes_ok_spec hrun
  refine ⟨hmem, ?_⟩
  have hlast_mem : lastId ∈ topoOrder p := List.mem_of_getLast?_eq_some hlast
  obtain ⟨nd', prevv, -, hout⟩ := hmem lastId hlast_mem
  cases hl : lookupEntry st.plan lastId with
  | none => rw [hl] at hout; simp at hout
  | some nd2 =>
      rw [hl] at hout
      cases ho : nd2.output with
      | none => simp [ho] at hout
      | some w =>
          refine ⟨w, ?_, ho⟩
          unfold PlanExecutor.execute_dag
          simp only [hmiss, hrun, hlast, hl, ho]

/-- Witness for **C3** on the concrete two-node plan. -/
theorem claim3_witness :
    ∃ v, PlanExecutor.execute_dag cenvOk plan2 = .ok v ∧
      (lookupEntry (okState (runNodes cenvOk ⟨plan2, none⟩
        (topoOrder plan2))).plan "b").bind NodeEntry.output = some v :=
  (claim3_review_output cenvOk plan2 _ "b" (by decide) (by decide)
    (by decide)).2

/-- **C4**: when the loop iteration that executes node B begins (i.e. after
the prefix of the order before B has run), every node A in B's `depends` has
its finalized `output` written into the shared structure. -/
theorem claim4_deps_finalized (env : ExecEnv) (p : Plan) (pre : List String)
    (id : String) (post : List String) (st : ExecState) (nd : NodeEntry)
    (hnd : (nodeIds p).Nodup)
    (hmiss : firstMissingDep p = none)
    (hsplit : topoOrder p = pre ++ id :: post)
    (hpre : runNodes env ⟨p, none⟩ pre = .ok st)
    (hnode : lookupEntry p id = some nd) :
    ∀ a ∈ nd.depends,
      ((lookupEntry st.plan a).bind NodeEntry.output).isSome = true := by
  intro a ha
  have hak : a ∈ nodeIds p := depsClosed_of_firstMissingDep hmiss hnode a ha
  have hat1 : a ∈ pre := topoOrder_dep_before p hnd hsplit hnode ha hak
  obtain ⟨-, hmem, -⟩ := runNodes_ok_spec hpre
  obtain ⟨nd', prevv, -, hout⟩ := hmem a hat1
  rw [hout]
  rfl

/-- Witness for **C4**: before `b` runs, `a`'s output is in the store. -/
theorem claim4_witness :
    ((lookupEntry (okState (runNodes cenvOk ⟨plan2, none⟩ ["a"])).plan
      "a").bind NodeEntry.output).isSome = true :=
  claim4_deps_finalized cenvOk plan2 ["a"] "b" [] _
    ⟨some "step b", ["a"], true, "qb", none, none, "pending"⟩
    (by decide) (by decide) (by decide) (by decide) (by decide)
    "a" (by decide)

/-- **C5** counterexample: on a plan with the cycle `b ↔ c`, the queue
empties after emitting only `a`, no `CycleDetected` failure occurs —
`execute_dag` silently executes just the emitted node and returns its
reviewed output, while `b` keeps no `output` at all. -/
theorem claim5_counterexample :
    hasCycleB plan5 = true ∧
    topoOrder plan5 = ["a"] ∧
    PlanExecutor.execute_dag cenvOk plan5 = .ok (.jsonVal "review") ∧
    ((finalPlanOf (runNodes cenvOk ⟨plan5, none⟩ (topoOrder plan5))).bind
      (fun pl => lookupEntry pl "b")).map (fun nd => nd.output) =
      some none := by
  refine ⟨by decide, by decide, by decide, by decide⟩

/-- **C5** amended: on a cyclic plan the queue empties before all nodes are
emitted — a node on a cycle never enters `topo_order` — but no
`CycleDetected` error exists in the code: the run executes exactly the
emitted nodes, and the cycle node's entry is left untouched (never
dispatched). -/
theorem claim5_amended (env : ExecEnv) (p : Plan) (x : String)
    (st : ExecState)
    (hnd : (nodeIds p).Nodup)
    (hcyc : onCycleB p x = true)
    (hrun : runNodes env ⟨p, none⟩ (topoOrder p) = .ok st) :
    x ∉ topoOrder p ∧ lookupEntry st.plan x = lookupEntry p x := by
  have hx := onCycleB_not_mem_topoOrder p hnd hcyc
  obtain ⟨-, -, huntouched⟩ := runNodes_ok_spec hrun
  exact ⟨hx, huntouched x hx⟩

/-- Witness for **C5** amended at the concrete cyclic plan. -/
theorem claim5_amended_witness :
    "b" ∉ topoOrder plan5 ∧
    lookupEntry (okState (runNodes cenvOk ⟨plan5, none⟩
      (topoOrder plan5))).plan "b" = lookupEntry plan5 "b" :=
  claim5_amended cenvOk plan5 "b" _ (by decide) (by decide) (by decide)

/-- **C6** counterexample: the Graph Builder (`create_node_details`) performs
no validation at all — it returns the plan unchanged instead of failing with
`PlanInvalid` — and the missing dependency id `z` instead surfaces as a
`KeyError` inside `execute_dag`'s adjacency-matrix construction. -/
theorem claim6_counterexample :
    DAGCreator.create_node_details "task" planMissing = planMissing ∧
    PlanExecutor.execute_dag cenvOk planMissing = .error (.keyError "z") := by
  exact ⟨rfl, by decide⟩

/-- **C6** amended: for a plan in which some `depends` names a non-key, the
Graph Builder returns the plan unchanged (no `PlanInvalid`, no failure); the
run then fails with `KeyError` on the first missing id while `execute_dag`
builds the adjacency matrix, before any node is dispatched. -/
theorem claim6_amended (env : ExecEnv) (ut : String) (p : Plan) (v : String)
    (hm : firstMissingDep p = some v) :
    DAGCreator.create_node_details ut p = p ∧
    PlanExecutor.execute_dag env p = .error (.keyError v) := by
  refine ⟨rfl, ?_⟩
  unfold PlanExecutor.execute_dag
  simp only [hm]

/-- Witness for **C6** amended. -/
theorem claim6_amended_witness :
    DAGCreator.create_node_details "task" planMissing = planMissing ∧
    PlanExecutor.execute_dag cenvFail planMissing = .error (.keyError "z") :=
  claim6_amended cenvFail "task" planMissing "z" (by decide)

/-- **C7**: for a non-atomic node reached by the loop, the step-resolution
message carries the node's description (or its default), `previous_output`,
the original user task, and the full plan structure as it stands; inside that
carried plan snapshot, every dependency of the node already has its
finalized `output`. -/
theorem claim7_resolve_message (env : ExecEnv) (p : Plan) (pre : List String)
    (id : String) (post : List String) (st : ExecState) (nd : NodeEntry)
    (pv : Value)
    (hnd : (nodeIds p).Nodup)
    (hmiss : firstMissingDep p = none)
    (hsplit : topoOrder p = pre ++ id :: post)
    (hpre : runNodes env ⟨p, none⟩ pre = .ok st)
    (hnode : lookupEntry st.plan id = some nd)
    (hprev : st.prev = some pv) :
    resolveMsg env st id nd pv =
      .resolveStep (nd.description.getD ("Process step: " ++ id)) pv
        env.userTask st.plan ∧
    ∀ a ∈ nd.depends,
      ((lookupEntry (resolveMsg env st id nd pv).planCtxOf a).bind
        NodeEntry.output).isSome = true := by
  refine ⟨rfl, ?_⟩
  intro a ha
  show ((lookupEntry st.plan a).bind NodeEntry.output).isSome = true
  obtain ⟨hshape, hmem, -⟩ := runNodes_ok_spec hpre
  have hsh := hshape id
  rw [hnode] at hsh
  cases hl0 : lookupEntry p id with
  | none => rw [hl0] at hsh; simp [entryShape] at hsh
  | some nd0 =>
      rw [hl0] at hsh
      have hdep : nd.depends = nd0.depends := by
        have := (@shape_eq_components (some nd) (some nd0) hsh).2.1
        simpa using this
      have ha0 : a ∈ nd0.depends := hdep ▸ ha
      have hak : a ∈ nodeIds p := depsClosed_of_firstMissingDep hmiss hl0 a ha0
      have hat1 : a ∈ pre := topoOrder_dep_before p hnd hsplit hl0 ha0 hak
      obtain ⟨nd', prevv, -, hout⟩ := hmem a hat1
      rw [hout]
      rfl

/-- Witness for **C7** at the non-atomic node `c` of `plan1`. -/
theorem claim7_witness :
    ((lookupEntry (resolveMsg cenvOk
        (okState (runNodes cenvOk ⟨plan1, none⟩ ["a", "b"])) "c"
        ⟨some "aggregate", ["a", "b"], false, "", none, none, "pending"⟩
        (.jsonVal "review")).planCtxOf "a").bind NodeEntry.output).isSome =
      true :=
  (claim7_resolve_message cenvOk plan1 ["a", "b"] "c" []
    (okState (runNodes cenvOk ⟨plan1, none⟩ ["a", "b"]))
    ⟨some "aggregate", ["a", "b"], false, "", none, none, "pending"⟩
    (.jsonVal "review") (by decide) (by decide) (by decide) (by decide)
    (by decide) (by decide)).2 "a" (by decide)

/-- **C9**: `execute_query` never raises — for every input value and every
behaviour of the underlying HTTP request, the handler chain catches the
body's exception and returns the exception object as the function's value,
so the caller receives either the decoded JSON or the error in its place,
never a propagated exception. -/
theorem claim9_never_raises (http : HttpRequest → HttpOutcome)
    (baseUrl : List Char) (v : Value) :
    (∀ e, FiwareClient.execute_query http baseUrl v ≠ .error e) ∧
    (∀ e, executeQueryBody http baseUrl v = .error e →
      FiwareClient.execute_query http baseUrl v = .ok (Value.exnVal e)) ∧
    (∀ b, executeQueryBody http baseUrl v = .ok b →
      FiwareClient.execute_query http baseUrl v = .ok b) := by
  obtain ⟨h1, h2⟩ := execute_query_total http baseUrl v
  refine ⟨?_, h2, h1⟩
  intro e he
  cases hb : executeQueryBody http baseUrl v with
  | ok b =>
      rw [h1 b hb] at he
      exact absurd he (by simp)
  | error e' =>
      rw [h2 e' hb] at he
      exact absurd he (by simp)

/-- **C10**: when the first node of the computed topological order is
non-atomic, the prompt construction on line 104 reads the never-assigned
local `previous_output`, so the whole run fails with `NameError` before the
node's query is ever executed. -/
theorem claim10_nameerror (env : ExecEnv) (p : Plan) (id : String)
    (rest : List String) (nd : NodeEntry)
    (hmiss : firstMissingDep p = none)
    (hord : topoOrder p = id :: rest)
    (hnode : lookupEntry p id = some nd)
    (hatomic : nd.atomic = false) :
    PlanExecutor.execute_dag env p =
      .error (.nameError "previous_output") := by
  have hres : resolvePhase env ⟨p, none⟩ id nd =
      .error (.nameError "previous_output") := by
    unfold resolvePhase
    rw [if_neg (by simp [hatomic])]
  have hex : execNode env ⟨p, none⟩ id =
      .error (.nameError "previous_output") := by
    unfold execNode
    simp only [hnode, hres]
  have hrun : runNodes env ⟨p, none⟩ (topoOrder p) =
      .error (.nameError "previous_output") := by
    rw [hord]
    unfold runNodes
    simp only [hex]
  unfold PlanExecutor.execute_dag
  simp only [hmiss, hrun]

/-- Witness for **C10** on a plan whose first node is non-atomic. -/
theorem claim10_witness :
    PlanExecutor.execute_dag cenvOk planNonAtomicFirst =
      .error (.nameError "previous_output") :=
  claim10_nameerror cenvOk planNonAtomicFirst "a" ["b"]
    ⟨some "needs the oracle", [], false, "", none, none, "pending"⟩
    (by decide) (by decide) (by decide) (by decide)

/-! ## C8: query normalization in `execute_query` -/

theorem dropWhile_eq_self_of_head {pred : Char → Bool} {l : List Char}
    (h : ∀ c, l.head? = some c → pred c = false) : l.dropWhile pred = l := by
  cases l with
  | nil => rfl
  | cons a t =>
      rw [List.dropWhile_cons, h a rfl]
      simp

theorem pyStrip_eq_self {l : List Char}
    (h1 : ∀ c, l.head? = some c → isPySpace c = false)
    (h2 : ∀ c, l.getLast? = some c → isPySpace c = false) : pyStrip l = l := by
  unfold pyStrip
  rw [dropWhile_eq_self_of_head h1]
  rw [dropWhile_eq_self_of_head
    (fun c hc => h2 c (by rwa [List.head?_reverse] at hc))]
  exact List.reverse_reverse l

theorem pyStrip_cons_space (X : List Char) : pyStrip (' ' :: X) = pyStrip X := by
  unfold pyStrip
  rw [List.dropWhile_cons, if_pos (by decide)]

theorem beq_space_false_of_not_pySpace {c : Char}
    (h : isPySpace c = false) : (c == ' ') = false := by
  by_cases hc : (c == ' ') = true
  · unfold isPySpace at h
    rw [hc] at h
    simp at h
  · revert hc
    cases c == ' ' <;> simp

theorem removeSpaces_eq_self {l : List Char}
    (hw : ∀ c ∈ l, isPySpace c = false) : removeSpaces l = l := by
  unfold removeSpaces
  apply List.filter_eq_self.mpr
  intro c hc
  simp [beq_space_false_of_not_pySpace (hw c hc)]

theorem dropWhile_slash_eq_self {rest : List Char}
    (hsl : rest.head? ≠ some '/') :
    rest.dropWhile (fun c => c == '/') = rest := by
  apply dropWhile_eq_self_of_head
  intro c hc
  have hne : c ≠ '/' := fun he => hsl (he ▸ hc)
  simp [hne]

theorem get_not_prefixOf_marker (rest : List Char) :
    "GET".data.isPrefixOf (localhostMarker ++ rest) = false := by
  rw [show "GET".data = 'G' :: "ET".data from by decide,
    show localhostMarker = 'h' :: "ttp://localhost:1026/".data from by decide,
    List.cons_append]
  simp [List.isPrefixOf, show (('G' : Char) == 'h') = false from by decide]

theorem marker_strip_eq_self {rest : List Char} (hne : rest ≠ [])
    (hw : ∀ c ∈ rest, isPySpace c = false) :
    pyStrip (localhostMarker ++ rest) = localhostMarker ++ rest := by
  apply pyStrip_eq_self
  · intro c hc
    rw [show (localhostMarker ++ rest).head? = some 'h' from by
      rw [show localhostMarker = 'h' :: "ttp://localhost:1026/".data from by
        decide, List.cons_append]
      rfl] at hc
    obtain rfl : 'h' = c := Option.some.inj hc
    decide
  · intro c hc
    rw [getLast?_append_right hne] at hc
    exact hw c (List.mem_of_getLast?_eq_some hc)

theorem marker_isPrefixOf_append (rest : List Char) :
    localhostMarker.isPrefixOf (localhostMarker ++ rest) = true := by
  rw [List.isPrefixOf_iff_prefix]
  exact List.prefix_append _ _

theorem head_fact_of_eq {A : List Char} {d : Char} (hA : A.head? = some d)
    (hd : isPySpace d = false) :
    ∀ c, A.head? = some c → isPySpace c = false := by
  intro c hc
  rw [hA] at hc
  obtain rfl : d = c := Option.some.inj hc
  exact hd

theorem dropWhile_append_of_head {pred : Char → Bool} {b : List Char}
    (hb : ∀ c, b.head? = some c → pred c = false) :
    ∀ a : List Char, (a ++ b).dropWhile pred = a.dropWhile pred ++ b := by
  intro a
  induction a with
  | nil => simpa using dropWhile_eq_self_of_head hb
  | cons x t ih =>
      rw [List.cons_append, List.dropWhile_cons, List.dropWhile_cons]
      by_cases hx : pred x = true
      · rw [if_pos hx, if_pos hx]
        exact ih
      · rw [if_neg hx, if_neg hx, List.cons_append]

theorem dropWhile_append_of_ne_nil {pred : Char → Bool} {a : List Char}
    (h : a.dropWhile pred ≠ []) (b : List Char) :
    (a ++ b).dropWhile pred = a.dropWhile pred ++ b := by
  induction a with
  | nil => exact absurd rfl h
  | cons x t ih =>
      rw [List.cons_append, List.dropWhile_cons]
      rw [List.dropWhile_cons] at h ⊢
      by_cases hx : pred x = true
      · rw [if_pos hx] at h
        rw [if_pos hx, if_pos hx]
        exact ih h
      · rw [if_neg hx, if_neg hx, List.cons_append]

theorem dropWhile_append_of_nil {pred : Char → Bool} {a : List Char}
    (h : a.dropWhile pred = []) (b : List Char) :
    (a ++ b).dropWhile pred = b.dropWhile pred := by
  induction a with
  | nil => rfl
  | cons x t ih =>
      rw [List.dropWhile_cons] at h
      by_cases hx : pred x = true
      · rw [if_pos hx] at h
        rw [List.cons_append, List.dropWhile_cons, if_pos hx]
        exact ih h
      · rw [if_neg hx] at h
        exact absurd h (by simp)

theorem head?_dropWhile_false {pred : Char → Bool} {l : List Char} {c : Char}
    (h : (l.dropWhile pred).head? = some c) : pred c = false := by
  induction l with
  | nil => simp at h
  | cons x t ih =>
      rw [List.dropWhile_cons] at h
      by_cases hx : pred x = true
      · rw [if_pos hx] at h
        exact ih h
      · rw [if_neg hx, List.head?_cons] at h
        obtain rfl : x = c := Option.some.inj h
        revert hx
        cases pred x <;> simp

theorem pyStrip_append_of_ends {A : List Char} (rest : List Char)
    (hh : ∀ c, A.head? = some c → isPySpace c = false)
    (hl : ∀ c, A.reverse.head? = some c → isPySpace c = false)
    (hA : A ≠ []) :
    pyStrip (A ++ rest) = A ++ pyRStrip rest := by
  unfold pyStrip pyRStrip
  have h1 : (A ++ rest).dropWhile isPySpace = A ++ rest := by
    apply dropWhile_eq_self_of_head
    intro c hc
    cases A with
    | nil => exact absurd rfl hA
    | cons d A2 =>
        rw [List.cons_append, List.head?_cons] at hc
        exact hh c (by rw [List.head?_cons]; exact hc)
  rw [h1, List.reverse_append, dropWhile_append_of_head hl rest.reverse,
    List.reverse_append, List.reverse_reverse]

theorem pyRStrip_getLast (rest : List Char) :
    ∀ c, (pyRStrip rest).getLast? = some c → isPySpace c = false := by
  intro c hc
  unfold pyRStrip at hc
  rw [List.getLast?_reverse] at hc
  exact head?_dropWhile_false hc

theorem getLast?_dropWhile_of_ne_nil {pred : Char → Bool} {l : List Char}
    (h : l.dropWhile pred ≠ []) :
    (l.dropWhile pred).getLast? = l.getLast? := by
  conv_rhs => rw [← List.takeWhile_append_dropWhile pred l]
  rw [getLast?_append_right h]

theorem pyStrip_pyRStrip (rest : List Char) :
    pyStrip (pyRStrip rest) = (pyRStrip rest).dropWhile isPySpace := by
  unfold pyStrip
  by_cases hW : (pyRStrip rest).dropWhile isPySpace = []
  · rw [hW]
    rfl
  · rw [dropWhile_eq_self_of_head (fun c hc => by
      rw [List.head?_reverse] at hc
      rw [getLast?_dropWhile_of_ne_nil hW] at hc
      exact pyRStrip_getLast rest c hc)]
    exact List.reverse_reverse _

theorem head?_filter_keep {q : Char → Bool} {l : List Char} {d : Char}
    (h : l.head? = some d) (hq : q d = true) :
    (l.filter q).head? = some d := by
  cases l with
  | nil => simp at h
  | cons x t =>
      rw [List.head?_cons] at h
      obtain rfl : x = d := Option.some.inj h
      rw [List.filter_cons, if_pos hq, List.head?_cons]

theorem getLast?_filter_keep {q : Char → Bool} {l : List Char} {d : Char}
    (h : l.getLast? = some d) (hq : q d = true) :
    (l.filter q).getLast? = some d := by
  obtain ⟨ys, rfl⟩ := List.getLast?_eq_some_iff.mp h
  rw [List.filter_append, show List.filter q [d] = [d] from by
    rw [List.filter_cons, if_pos hq]; rfl]
  rw [getLast?_append_right (by simp : ([d] : List Char) ≠ [])]
  simp

/-- Closed form of the normalization when the query carries only the example
origin: the remainder is right-trimmed and its leading slashes are dropped. -/
theorem normalizeParams_origin_gen (rest : List Char) :
    normalizeParams ("http://localhost:1026/".data ++ rest) =
      (pyRStrip rest).dropWhile (fun c => c == '/') := by
  have hstrip : pyStrip ("http://localhost:1026/".data ++ rest) =
      localhostMarker ++ pyRStrip rest :=
    pyStrip_append_of_ends rest
      (head_fact_of_eq
        (show ("http://localhost:1026/".data).head? = some 'h' from by decide)
        (by decide))
      (head_fact_of_eq
        (show ("http://localhost:1026/".data).reverse.head? = some '/' from by
          decide)
        (by decide))
      (by decide)
  have hcond : ¬ ("GET".data.isPrefixOf
      (pyStrip ("http://localhost:1026/".data ++ rest)) = true) := by
    intro h
    rw [hstrip, get_not_prefixOf_marker] at h
    exact absurd h (by simp)
  simp only [normalizeParams]
  rw [if_neg hcond, hstrip,
    if_pos (marker_isPrefixOf_append (pyRStrip rest)), List.drop_left]

/-- Closed form when the query carries both `GET` and the origin: the
remainder is right-trimmed, every space character is deleted, and the
leading slashes of the result are dropped. -/
theorem normalizeParams_full_gen (rest : List Char) :
    normalizeParams ("GET http://localhost:1026/".data ++ rest) =
      (removeSpaces (pyRStrip rest)).dropWhile (fun c => c == '/') := by
  have hA : "GET http://localhost:1026/".data =
      "GET".data ++ (' ' :: localhostMarker) := by decide
  have hstrip1 : pyStrip ("GET http://localhost:1026/".data ++ rest) =
      "GET http://localhost:1026/".data ++ pyRStrip rest :=
    pyStrip_append_of_ends rest
      (head_fact_of_eq
        (show ("GET http://localhost:1026/".data).head? = some 'G' from by
          decide)
        (by decide))
      (head_fact_of_eq
        (show ("GET http://localhost:1026/".data).reverse.head? = some '/' from
          by decide)
        (by decide))
      (by decide)
  have hc1 : "GET".data.isPrefixOf
      ("GET http://localhost:1026/".data ++ pyRStrip rest) = true := by
    rw [List.isPrefixOf_iff_prefix]
    exact ⟨(' ' :: localhostMarker) ++ pyRStrip rest,
      by rw [hA, List.append_assoc]⟩
  have hdrop : ("GET http://localhost:1026/".data ++ pyRStrip rest).drop 3 =
      ' ' :: (localhostMarker ++ pyRStrip rest) := by
    rw [hA, List.append_assoc,
      show (3 : Nat) = "GET".data.length from by decide, List.drop_left,
      List.cons_append]
  have hstrip2 : pyStrip (localhostMarker ++ pyRStrip rest) =
      localhostMarker ++ pyRStrip rest := by
    apply pyStrip_eq_self
    · exact head_fact_of_eq (show (localhostMarker ++ pyRStrip rest).head? =
        some 'h' from by
          rw [show localhostMarker = 'h' :: "ttp://localhost:1026/".data from
            by decide, List.cons_append, List.head?_cons]) (by decide)
    · intro c hc
      by_cases hX : pyRStrip rest = []
      · rw [hX, List.append_nil,
          show localhostMarker.getLast? = some '/' from by decide] at hc
        obtain rfl : '/' = c := Option.some.inj hc
        decide
      · rw [getLast?_append_right hX] at hc
        exact pyRStrip_getLast rest c hc
  have hrs : removeSpaces (localhostMarker ++ pyRStrip rest) =
      localhostMarker ++ removeSpaces (pyRStrip rest) := by
    unfold removeSpaces
    rw [List.filter_append,
      show List.filter (fun c => !(c == ' ')) localhostMarker =
        localhostMarker from by decide]
  have hstrip3 : pyStrip (localhostMarker ++ removeSpaces (pyRStrip rest)) =
      localhostMarker ++ removeSpaces (pyRStrip rest) := by
    apply pyStrip_eq_self
    · exact head_fact_of_eq (show (localhostMarker ++
        removeSpaces (pyRStrip rest)).head? = some 'h' from by
          rw [show localhostMarker = 'h' :: "ttp://localhost:1026/".data from
            by decide, List.cons_append, List.head?_cons]) (by decide)
    · intro c hc
      by_cases hY : removeSpaces (pyRStrip rest) = []
      · rw [hY, List.append_nil,
          show localhostMarker.getLast? = some '/' from by decide] at hc
        obtain rfl : '/' = c := Option.some.inj hc
        decide
      · rw [getLast?_append_right hY] at hc
        obtain ⟨d, hd⟩ : ∃ d, (pyRStrip rest).getLast? = some d := by
          cases hXl : (pyRStrip rest).getLast? with
          | none =>
              rw [List.getLast?_eq_none_iff.mp hXl] at hY
              exact absurd rfl hY
          | some d => exact ⟨d, rfl⟩
        have hdws : isPySpace d = false := pyRStrip_getLast rest d hd
        have hkeep : (removeSpaces (pyRStrip rest)).getLast? = some d := by
          unfold removeSpaces
          exact getLast?_filter_keep hd
            (by simp [beq_space_false_of_not_pySpace hdws])
        rw [hkeep] at hc
        obtain rfl : d = c := Option.some.inj hc
        exact hdws
  simp only [normalizeParams]
  rw [hstrip1, if_pos hc1, hdrop, pyStrip_cons_space, hstrip2, hrs, hstrip3,
    if_pos (marker_isPrefixOf_append (removeSpaces (pyRStrip rest))),
    List.drop_left]

/-- Closed form when the query carries only the `GET` verb: the remainder is
trimmed on both sides and every space character is deleted; if the cleaned
remainder itself begins with the example origin, that origin and the
following slashes are stripped as well. -/
theorem normalizeParams_getOnly_gen (rest : List Char) :
    normalizeParams ("GET ".data ++ rest) =
      (if localhostMarker.isPrefixOf
          (removeSpaces ((pyRStrip rest).dropWhile isPySpace))
       then ((removeSpaces ((pyRStrip rest).dropWhile isPySpace)).drop
          localhostMarker.length).dropWhile (fun c => c == '/')
       else removeSpaces ((pyRStrip rest).dropWhile isPySpace)) := by
  have hG4 : "GET ".data = "GET".data ++ [' '] := by decide
  by_cases hX : pyRStrip rest = []
  · -- the remainder is entirely whitespace: everything collapses to the
    -- empty remainder
    have hrw : rest.reverse.dropWhile isPySpace = [] := by
      have h2 : (rest.reverse.dropWhile isPySpace).reverse = [] := hX
      exact List.reverse_eq_nil_iff.mp h2
    have hstrip : pyStrip ("GET ".data ++ rest) = "GET".data := by
      unfold pyStrip
      have h1 : ("GET ".data ++ rest).dropWhile isPySpace =
          "GET ".data ++ rest :=
        dropWhile_eq_self_of_head (fun c hc => by
          rw [show ("GET ".data ++ rest).head? = some 'G' from by
            rw [show "GET ".data = 'G' :: "ET ".data from by decide,
              List.cons_append, List.head?_cons]] at hc
          obtain rfl : 'G' = c := Option.some.inj hc
          decide)
      rw [h1, List.reverse_append,
        dropWhile_append_of_nil hrw "GET ".data.reverse]
      decide
    simp only [normalizeParams]
    rw [hstrip,
      if_pos (show "GET".data.isPrefixOf "GET".data = true from by decide),
      hX]
    decide
  · have hdw_ne : rest.reverse.dropWhile isPySpace ≠ [] := fun h => hX (by
      unfold pyRStrip
      rw [h]
      rfl)
    have hstrip1 : pyStrip ("GET ".data ++ rest) =
        "GET ".data ++ pyRStrip rest := by
      unfold pyStrip pyRStrip
      have h1 : ("GET ".data ++ rest).dropWhile isPySpace =
          "GET ".data ++ rest :=
        dropWhile_eq_self_of_head (fun c hc => by
          rw [show ("GET ".data ++ rest).head? = some 'G' from by
            rw [show "GET ".data = 'G' :: "ET ".data from by decide,
              List.cons_append, List.head?_cons]] at hc
          obtain rfl : 'G' = c := Option.some.inj hc
          decide)
      rw [h1, List.reverse_append,
        dropWhile_append_of_ne_nil hdw_ne "GET ".data.reverse,
        List.reverse_append, List.reverse_reverse]
    have hc1 : "GET".data.isPrefixOf ("GET ".data ++ pyRStrip rest) = true := by
      rw [List.isPrefixOf_iff_prefix]
      exact ⟨[' '] ++ pyRStrip rest, by rw [hG4, List.append_assoc]⟩
    have hdrop : ("GET ".data ++ pyRStrip rest).drop 3 =
        ' ' :: pyRStrip rest := by
      rw [hG4, List.append_assoc,
        show (3 : Nat) = "GET".data.length from by decide, List.drop_left]
      rfl
    have hmid : pyStrip (' ' :: pyRStrip rest) =
        (pyRStrip rest).dropWhile isPySpace := by
      rw [pyStrip_cons_space]
      exact pyStrip_pyRStrip rest
    have hW_ne : (pyRStrip rest).dropWhile isPySpace ≠ [] := by
      intro h
      obtain ⟨d, hd⟩ : ∃ d, (pyRStrip rest).getLast? = some d := by
        cases hXl : (pyRStrip rest).getLast? with
        | none => exact absurd (List.getLast?_eq_none_iff.mp hXl) hX
        | some d => exact ⟨d, rfl⟩
      have hws : isPySpace d = true :=
        List.dropWhile_eq_nil_iff.mp h d (List.mem_of_getLast?_eq_some hd)
      rw [pyRStrip_getLast rest d hd] at hws
      exact absurd hws (by simp)
    have hZ_head : ∀ c,
        (removeSpaces ((pyRStrip rest).dropWhile isPySpace)).head? = some c →
        isPySpace c = false := by
      intro c hc
      obtain ⟨w, hw⟩ : ∃ w, ((pyRStrip rest).dropWhile isPySpace).head? =
          some w := by
        cases hh : ((pyRStrip rest).dropWhile isPySpace).head? with
        | none => exact absurd (List.head?_eq_none_iff.mp hh) hW_ne
        | some w => exact ⟨w, rfl⟩
      have hwws : isPySpace w = false := head?_dropWhile_false hw
      have hkeep : (removeSpaces ((pyRStrip rest).dropWhile isPySpace)).head? =
          some w := by
        unfold removeSpaces
        exact head?_filter_keep hw
          (by simp [beq_space_false_of_not_pySpace hwws])
      rw [hkeep] at hc
      obtain rfl : w = c := Option.some.inj hc
      exact hwws
    have hZ_last : ∀ c,
        (removeSpaces ((pyRStrip rest).dropWhile isPySpace)).getLast? =
          some c →
        isPySpace c = false := by
      intro c hc
      obtain ⟨d, hd⟩ : ∃ d, ((pyRStrip rest).dropWhile isPySpace).getLast? =
          some d := by
        cases hXl : ((pyRStrip rest).dropWhile isPySpace).getLast? with
        | none =>
            exact absurd (List.getLast?_eq_none_iff.mp hXl) hW_ne
        | some d => exact ⟨d, rfl⟩
      have hd_orig : (pyRStrip rest).getLast? = some d := by
        rw [← getLast?_dropWhile_of_ne_nil hW_ne]
        exact hd
      have hdws : isPySpace d = false := pyRStrip_getLast rest d hd_orig
      have hkeep :
          (removeSpaces ((pyRStrip rest).dropWhile isPySpace)).getLast? =
          some d := by
        unfold removeSpaces
        exact getLast?_filter_keep hd
          (by simp [beq_space_false_of_not_pySpace hdws])
      rw [hkeep] at hc
      obtain rfl : d = c := Option.some.inj hc
      exact hdws
    have hstripZ :
        pyStrip (removeSpaces ((pyRStrip rest).dropWhile isPySpace)) =
        removeSpaces ((pyRStrip rest).dropWhile isPySpace) :=
      pyStrip_eq_self hZ_head hZ_last
    simp only [normalizeParams]
    rw [hstrip1, if_pos hc1, hdrop, hmid, hstripZ]

/-- **C8** (amended): a query string prefixed with the HTTP verb `GET`
and/or the example origin `http://localhost:1026/` has the prefix stripped,
and the request is issued against the client's base URL joined with the
remaining query text after the code's additional normalization, with the
linked-context `Link` header attached: the remainder is right-trimmed (and,
in the `GET`-only case, left-trimmed); when the `GET` verb was present every
space character of the remainder is deleted; when the origin prefix was
stripped the remainder's leading slashes are dropped as well (in the
`GET`-only case the origin check is re-applied to the cleaned remainder). -/
theorem claim8_normalization (base rest : List Char) :
    requestOf base
        (.str (String.mk ("GET http://localhost:1026/".data ++ rest))) =
      ⟨base ++ '/' ::
        (removeSpaces (pyRStrip rest)).dropWhile (fun c => c == '/'),
       contextLinkHeader⟩ ∧
    requestOf base (.str (String.mk ("http://localhost:1026/".data ++ rest))) =
      ⟨base ++ '/' :: (pyRStrip rest).dropWhile (fun c => c == '/'),
       contextLinkHeader⟩ ∧
    requestOf base (.str (String.mk ("GET ".data ++ rest))) =
      ⟨base ++ '/' ::
        (if localhostMarker.isPrefixOf
            (removeSpaces ((pyRStrip rest).dropWhile isPySpace))
         then ((removeSpaces ((pyRStrip rest).dropWhile isPySpace)).drop
            localhostMarker.length).dropWhile (fun c => c == '/')
         else removeSpaces ((pyRStrip rest).dropWhile isPySpace)),
       contextLinkHeader⟩ := by
  refine ⟨?_, ?_, ?_⟩
  · show HttpRequest.mk
      (base ++ '/' ::
        normalizeParams ("GET http://localhost:1026/".data ++ rest))
      contextLinkHeader = _
    rw [normalizeParams_full_gen rest]
  · show HttpRequest.mk
      (base ++ '/' :: normalizeParams ("http://localhost:1026/".data ++ rest))
      contextLinkHeader = _
    rw [normalizeParams_origin_gen rest]
  · show HttpRequest.mk
      (base ++ '/' :: normalizeParams ("GET ".data ++ rest))
      contextLinkHeader = _
    rw [normalizeParams_getOnly_gen rest]

/-- Witness for the amended **C8** on a concrete remainder carrying an
interior space, a leading slash and trailing whitespace. -/
theorem claim8_amended_witness :
    requestOf "http://host:1026".data
        (.str (String.mk
          ("GET http://localhost:1026/".data ++ "/a b ".data))) =
      ⟨"http://host:1026".data ++ '/' :: "ab".data, contextLinkHeader⟩ ∧
    requestOf "http://host:1026".data
        (.str (String.mk ("http://localhost:1026/".data ++ "/a b".data))) =
      ⟨"http://host:1026".data ++ '/' :: "a b".data, contextLinkHeader⟩ := by
  constructor
  · have h := (claim8_normalization "http://host:1026".data "/a b ".data).1
    rw [h]
    decide
  · have h := (claim8_normalization "http://host:1026".data "/a b".data).2.1
    rw [h]
    decide

/-- **C8** counterexample to the original claim: the request is not issued
at the base URL joined with the remaining query text.  For `"GET a b"` the
remaining text is `"a b"`, but the code deletes the interior space and
requests `base/ab`; for `"http://localhost:1026//x"` the remaining text is
`"/x"`, but the code strips the leading slash and requests `base/x`. -/
theorem claim8_counterexample :
    requestOf "http://host:1026".data (.str "GET a b") =
      ⟨"http://host:1026".data ++ '/' :: "ab".data, contextLinkHeader⟩ ∧
    "ab".data ≠ "a b".data ∧
    requestOf "http://host:1026".data (.str "http://localhost:1026//x") =
      ⟨"http://host:1026".data ++ '/' :: "x".data, contextLinkHeader⟩ ∧
    "x".data ≠ "/x".data := by
  decide

end NgsiAgent
